import Mathlib

/-!
# Circular buffers and iterative quicksort of `solution.cpp`

A shallow embedding of the three classes of `src/solution.cpp` and proofs about them.

* `CircleBuffer<TSource>`: the fixed buffer over an array with the cursors `first_` and
  `last_` and the recovery rule `correct_collision`.
* `CircleBufferDynamic<TSource>`: the linked buffer; nodes live in an explicit heap and are
  referred to by address.
* `Array<TSource>::qsort`: the iterative quicksort with its stack of index bounds.

Part 1 holds the definitions translated from the source, Part 2 the theorems.
Undefined behaviour of the source (an access outside an array, a member access through
`nullptr`) is a failure value of the model, never a silent default. The array allocation of
the fixed buffer fails for a length above the implementation's limit; exhaustion of memory
is not modelled.
-/

/-! ## Part 1. Definitions -/

/-! ### `CircleBuffer` -/

/-- State of `CircleBuffer<TSource>`; cursors are `long long` values. -/
structure CircleBuffer (α : Type) where
  capacity_ : Int
  storage_ : List α
  first_ : Int
  last_ : Int
deriving DecidableEq

namespace CircleBuffer

variable {α : Type}

/-- First block of `correct_collision`: bring `last_` back inside the storage bounds. -/
def wrapLast (s : CircleBuffer α) : CircleBuffer α :=
  if s.last_ ≥ s.capacity_ then
    let s1 : CircleBuffer α := { s with last_ := 0 }
    if s1.last_ = s1.first_ ∧ s1.capacity_ > 1 then { s1 with first_ := s1.first_ + 1 } else s1
  else if s.last_ < 0 then
    let s1 : CircleBuffer α := { s with last_ := s.capacity_ - 1 }
    if s1.last_ = s1.first_ ∧ s1.capacity_ > 1 then { s1 with first_ := s1.first_ - 1 } else s1
  else s

/-- Second block of `correct_collision`: bring `first_` back inside the storage bounds. -/
def wrapFirst (s : CircleBuffer α) : CircleBuffer α :=
  if s.first_ ≥ s.capacity_ then
    let s1 : CircleBuffer α := { s with first_ := 0 }
    if s1.first_ = s1.last_ ∧ s1.capacity_ > 1 then { s1 with last_ := s1.last_ + 1 } else s1
  else if s.first_ < 0 then
    let s1 : CircleBuffer α := { s with first_ := s.capacity_ - 1 }
    if s1.first_ = s1.last_ ∧ s1.capacity_ > 1 then { s1 with last_ := s1.last_ - 1 } else s1
  else s

/-- The statement `addition ? ++first_ : ++last_;` of `correct_collision`. -/
def bump (addition : Bool) (s : CircleBuffer α) : CircleBuffer α :=
  if addition then { s with first_ := s.first_ + 1 } else { s with last_ := s.last_ + 1 }

/-- The test `last_ == first_ && capacity_ > 1` of `correct_collision`. -/
def collides (s : CircleBuffer α) : Prop := s.last_ = s.first_ ∧ s.capacity_ > 1

instance (s : CircleBuffer α) : Decidable (collides s) := by unfold collides; infer_instance

/-- What `wrapLast` does to the fields; first step of the termination argument of
`correct_collision`. -/
theorem wrapLast_spec (s : CircleBuffer α) :
    (wrapLast s).capacity_ = s.capacity_ ∧ (wrapLast s).storage_ = s.storage_ ∧
    (0 < s.capacity_ → 0 ≤ (wrapLast s).last_ ∧ (wrapLast s).last_ < s.capacity_) ∧
    ((wrapLast s).first_ = s.first_ ∨
      (1 < s.capacity_ ∧ 0 ≤ (wrapLast s).first_ ∧ (wrapLast s).first_ < s.capacity_ ∧
        (wrapLast s).first_ ≠ (wrapLast s).last_)) ∧
    (0 ≤ s.last_ → s.last_ < s.capacity_ → wrapLast s = s) := by
  obtain ⟨c, st, f, l⟩ := s
  simp only [wrapLast]
  split_ifs <;> simp <;> omega

/-- What `wrapFirst` does to the fields. -/
theorem wrapFirst_spec (s : CircleBuffer α) :
    (wrapFirst s).capacity_ = s.capacity_ ∧ (wrapFirst s).storage_ = s.storage_ ∧
    (0 < s.capacity_ → 0 ≤ (wrapFirst s).first_ ∧ (wrapFirst s).first_ < s.capacity_) ∧
    ((wrapFirst s).last_ = s.last_ ∨
      (1 < s.capacity_ ∧ 0 ≤ (wrapFirst s).last_ ∧ (wrapFirst s).last_ < s.capacity_ ∧
        (wrapFirst s).last_ ≠ (wrapFirst s).first_)) ∧
    (0 ≤ s.first_ → s.first_ < s.capacity_ → wrapFirst s = s) := by
  obtain ⟨c, st, f, l⟩ := s
  simp only [wrapFirst]
  split_ifs <;> simp <;> omega

theorem wrap_capacity (s : CircleBuffer α) :
    (wrapFirst (wrapLast s)).capacity_ = s.capacity_ ∧
    (wrapFirst (wrapLast s)).storage_ = s.storage_ := by
  have h1 := wrapLast_spec s
  have h2 := wrapFirst_spec (wrapLast s)
  exact ⟨h2.1.trans h1.1, h2.2.1.trans h1.2.1⟩

theorem wrap_range (s : CircleBuffer α) (hc : 0 < s.capacity_) :
    0 ≤ (wrapFirst (wrapLast s)).first_ ∧ (wrapFirst (wrapLast s)).first_ < s.capacity_ ∧
    0 ≤ (wrapFirst (wrapLast s)).last_ ∧ (wrapFirst (wrapLast s)).last_ < s.capacity_ := by
  obtain ⟨h1, -, h3, -, -⟩ := wrapLast_spec s
  obtain ⟨-, -, k3, k4, -⟩ := wrapFirst_spec (wrapLast s)
  rw [h1] at k3 k4
  have := h3 hc
  have := k3 hc
  rcases k4 with k4 | k4
  · rw [k4]; omega
  · omega

theorem wrap_bump_ne (addition : Bool) (s : CircleBuffer α) (hc : 1 < s.capacity_)
    (h0 : 0 ≤ s.first_) (h1 : s.first_ < s.capacity_) (he : s.last_ = s.first_) :
    (wrapFirst (wrapLast (bump addition s))).last_ ≠
      (wrapFirst (wrapLast (bump addition s))).first_ := by
  obtain ⟨c, st, f, l⟩ := s
  simp only at hc h0 h1 he
  subst he
  cases addition
  · have e1 : wrapFirst (⟨c, st, l, 0⟩ : CircleBuffer α) = ⟨c, st, l, 0⟩ :=
      (wrapFirst_spec _).2.2.2.2 h0 h1
    have e2 : wrapFirst (⟨c, st, l, l + 1⟩ : CircleBuffer α) = ⟨c, st, l, l + 1⟩ :=
      (wrapFirst_spec _).2.2.2.2 h0 h1
    have e3 : (wrapLast (⟨c, st, l, l + 1⟩ : CircleBuffer α) = ⟨c, st, l, 0⟩ ∧ l ≠ 0) ∨
        wrapLast (⟨c, st, l, l + 1⟩ : CircleBuffer α) = ⟨c, st, l, l + 1⟩ := by
      simp only [wrapLast]
      split_ifs <;> simp <;> omega
    have e4 : bump false (⟨c, st, l, l⟩ : CircleBuffer α) = ⟨c, st, l, l + 1⟩ := by
      simp [bump]
    rw [e4]
    rcases e3 with ⟨e3, hl⟩ | e3
    · rw [e3, e1]; simpa using Ne.symm hl
    · rw [e3, e2]; simp
  · have e1 : wrapLast (⟨c, st, l + 1, l⟩ : CircleBuffer α) = ⟨c, st, l + 1, l⟩ :=
      (wrapLast_spec _).2.2.2.2 h0 h1
    have e4 : bump true (⟨c, st, l, l⟩ : CircleBuffer α) = ⟨c, st, l + 1, l⟩ := by
      simp [bump]
    rw [e4, e1]
    clear e1 e4
    simp only [wrapFirst]
    split_ifs <;> simp <;> omega

/-- After the cursors were found equal and one of them was advanced, a second pass over the
two wrap blocks does not find them equal again. -/
theorem no_second_collision (addition : Bool) (s : CircleBuffer α)
    (h : collides (wrapFirst (wrapLast s))) :
    ¬ collides (wrapFirst (wrapLast (bump addition (wrapFirst (wrapLast s))))) := by
  obtain ⟨he, hc⟩ := h
  have hcap := (wrap_capacity s).1
  have hr := wrap_range s (by omega)
  intro hcol
  exact wrap_bump_ne addition (wrapFirst (wrapLast s)) hc (by omega) (by omega) he hcol.1

/-- Method `correct_collision`. The cursors stay within `-1 .. capacity_ + 1`, far from the
limits of `long long`, so they are modelled by unbounded integers. The recursion ends
because the nested call never finds the cursors equal again (`no_second_collision`). -/
def correct_collision (addition : Bool) (s : CircleBuffer α) : CircleBuffer α :=
  let s1 := wrapFirst (wrapLast s)
  if _h : collides s1 then
    correct_collision false (bump addition s1)
  else s1
termination_by (if collides (wrapFirst (wrapLast s)) then 1 else 0 : Nat)
decreasing_by
  have h1 : collides (wrapFirst (wrapLast s)) := by assumption
  have h2 := no_second_collision addition s h1
  simp [h1, h2]

/-- Ways the constructor can fail to yield an object. -/
inductive ConstructFault where
  /-- a `std::runtime_error` with its message -/
  | thrown (msg : String)
  /-- the `std::bad_array_new_length` of `new element_t[size]` -/
  | badArrayNewLength
deriving DecidableEq

/-- Constructor `CircleBuffer(size_t size)`; `size_t` is the class's own typedef of
`long long`. `maxLen` is the longest array of `element_t` the implementation allocates (at
most `PTRDIFF_MAX / sizeof(element_t)`): for a longer request `new element_t[size]` throws
`std::bad_array_new_length` and no object exists. The array obtained holds whatever the
allocation holds; `mem` gives the initial content of each slot. -/
def construct (maxLen : Nat) (size : Int) (mem : Nat → α) :
    Except ConstructFault (CircleBuffer α) :=
  if size < 0 then .error (.thrown ("Invalid size."))
  else if maxLen < size.toNat then .error .badArrayNewLength
  else .ok { capacity_ := size, storage_ := (List.range size.toNat).map mem,
             first_ := 0, last_ := 0 }

/-- Method `push`. `none` stands for a write outside the storage array. -/
def push (s : CircleBuffer α) (element : α) : Option (CircleBuffer α) :=
  if s.capacity_ = 0 then some s
  else if 0 ≤ s.last_ ∧ s.last_.toNat < s.storage_.length then
    some (correct_collision true
      { s with storage_ := s.storage_.set s.last_.toNat element, last_ := s.last_ + 1 })
  else none

/-- Method `pop`. `none` stands for a read outside the storage array. -/
def pop (s : CircleBuffer α) : Option (α × CircleBuffer α) :=
  if 0 ≤ s.first_ then
    match s.storage_[s.first_.toNat]? with
    | some needle => some (needle, correct_collision false { s with first_ := s.first_ + 1 })
    | none => none
  else none

/-- A call made by a client of the buffer. -/
inductive Op (α : Type) where
  | push (element : α)
  | pop
deriving DecidableEq

/-- Run a sequence of calls; the result lists the values returned by the `pop` calls in
call order, together with the final state. -/
def run (s : CircleBuffer α) : List (Op α) → Option (List α × CircleBuffer α)
  | [] => some ([], s)
  | Op.push v :: rest =>
    match push s v with
    | some s1 => run s1 rest
    | none => none
  | Op.pop :: rest =>
    match pop s with
    | some (needle, s1) =>
      match run s1 rest with
      | some (out, s2) => some (needle :: out, s2)
      | none => none
    | none => none

/-- Calls made on a freshly constructed buffer of capacity `size`, on an implementation that
allocates arrays of `size` elements (the constructor has returned). -/
def runFresh (size : Int) (mem : Nat → α) (ops : List (Op α)) :
    Option (List α × CircleBuffer α) :=
  match construct size.toNat size mem with
  | .ok s => run s ops
  | .error _ => none

/-- Cursor invariant of a buffer of capacity `C`. -/
def CursorsOk (C : Int) (s : CircleBuffer α) : Prop :=
  s.capacity_ = C ∧ s.storage_.length = C.toNat ∧
  0 ≤ s.first_ ∧ s.first_ < C ∧ 0 ≤ s.last_ ∧ s.last_ < C

/-- Ways a call on the fixed buffer can fail to return normally. -/
inductive Fault where
  /-- a `std::runtime_error` with its message -/
  | thrown (msg : String)
  /-- an access outside the storage array -/
  | outOfBounds
deriving DecidableEq

/-- Method `operator[]`. It is a `const` method: it reads the object and has no state to
return. -/
def subscript (s : CircleBuffer α) (index : Int) : Except Fault α :=
  if index ≠ 0 then .error (.thrown ("Invalid index.\n"))
  else if 0 ≤ s.first_ then
    match s.storage_[s.first_.toNat]? with
    | some x => .ok x
    | none => .error .outOfBounds
  else .error .outOfBounds

/-- A call of `push`, `pop` or `operator[]`. -/
inductive Call (α : Type) where
  | push (element : α)
  | pop
  | subscript (index : Int)
deriving DecidableEq

/-- Run a sequence of calls in which the caller catches the exception of `operator[]`.
The result is the final state, or `none` as soon as a call reads or writes outside the
storage array. -/
def runCalls (s : CircleBuffer α) : List (Call α) → Option (CircleBuffer α)
  | [] => some s
  | Call.push v :: rest =>
    match push s v with
    | some s1 => runCalls s1 rest
    | none => none
  | Call.pop :: rest =>
    match pop s with
    | some (_, s1) => runCalls s1 rest
    | none => none
  | Call.subscript i :: rest =>
    match subscript s i with
    | .error .outOfBounds => none
    | _ => runCalls s rest

/-- Calls made on a freshly constructed buffer of capacity `size`, on an implementation that
allocates arrays of `size` elements (the constructor has returned). -/
def runCallsFresh (size : Int) (mem : Nat → α) (calls : List (Call α)) :
    Option (CircleBuffer α) :=
  match construct size.toNat size mem with
  | .ok s => runCalls s calls
  | .error _ => none

end CircleBuffer

/-! ### `CircleBufferDynamic` -/

namespace CircleBufferDynamic

/-- Local structure `node`: a key and the address of the next node (`none` is `nullptr`). -/
structure node (α : Type) where
  key : α
  next : Option Nat
deriving DecidableEq

end CircleBufferDynamic

/-- State of `CircleBufferDynamic<TSource>`. `heap` lists every node created with `new`; the
address of a node is its position in `heap` (nodes are never freed by `push` or `pop`). -/
structure CircleBufferDynamic (α : Type) where
  heap : List (CircleBufferDynamic.node α)
  first_ : Option Nat
  last_ : Option Nat
  capacity_ : Int
  size_ : Int
deriving DecidableEq

namespace CircleBufferDynamic

variable {α : Type}

/-- Ways a call can fail to return normally. -/
inductive Fault where
  /-- a `std::runtime_error` with its message -/
  | thrown (msg : String)
  /-- a member access through `nullptr` -/
  | nullAccess
  /-- the recursion of `safe_push` never reaches a base case -/
  | endlessRecursion
deriving DecidableEq

/-- Read the node a pointer refers to. -/
def load (heap : List (node α)) (p : Option Nat) : Except Fault (Nat × node α) :=
  match p with
  | none => .error .nullAccess
  | some a =>
    match heap[a]? with
    | some n => .ok (a, n)
    | none => .error .nullAccess

/-- Method `safe_push`. The descent `safe_push(current_node->next, element)` leaves the
state untouched, so a descent that is longer than the number of nodes visits a node twice
and never ends; `fuel` bounds the descent and `endlessRecursion` reports that case. -/
def safe_push : Nat → Option Nat → α → CircleBufferDynamic α →
    Except Fault (CircleBufferDynamic α)
  | 0, _, _, _ => .error .endlessRecursion
  | fuel + 1, current_node, element, s => do
    let (c, cur) ← load s.heap current_node
    let s1 ←
      if (cur.next = s.first_ ∨ cur.next = none) ∧ s.size_ < s.capacity_ then
        -- current_node->next = new node(element); last_ = current_node->next;
        let a := s.heap.length
        let heap1 := s.heap ++ [⟨element, none⟩]
        let heap2 := heap1.set c { cur with next := some a }
        pure { s with heap := heap2, last_ := some a }
      else if s.size_ = s.capacity_ then do
        -- last_->next->key = element; last_ = last_->next; first_ = last_->next;
        let (_, l) ← load s.heap s.last_
        let (b, ln) ← load s.heap l.next
        let heap1 := s.heap.set b { ln with key := element }
        let (_, l1) ← load heap1 (some b)
        pure { s with heap := heap1, last_ := some b, first_ := l1.next }
      else
        safe_push fuel cur.next element s
    -- last_->next = first_;
    let (l, ln) ← load s1.heap s1.last_
    pure { s1 with heap := s1.heap.set l { ln with next := s1.first_ } }

/-- Constructor `CircleBufferDynamic(size_t size)`. -/
def construct (size : Int) : Except Fault (CircleBufferDynamic α) :=
  if size < 0 then .error (.thrown ("Invalid size.\n"))
  else .ok { heap := [], first_ := none, last_ := none, capacity_ := size, size_ := 0 }

/-- Constructor `CircleBufferDynamic(size_t size, element_t element)`. -/
def constructWith (size : Int) (element : α) : Except Fault (CircleBufferDynamic α) :=
  if size < 0 then .error (.thrown ("Invalid size.\n"))
  else .ok { heap := [⟨element, none⟩], first_ := some 0, last_ := some 0,
             capacity_ := size, size_ := 1 }

/-- Method `push`. -/
def push (s : CircleBufferDynamic α) (element : α) : Except Fault (CircleBufferDynamic α) := do
  let s1 ←
    if s.first_ = none then
      pure { s with heap := s.heap ++ [⟨element, none⟩], first_ := some s.heap.length }
    else
      safe_push (s.heap.length + 1) s.first_ element s
  pure { s1 with size_ := if s1.size_ + 1 < s1.capacity_ then s1.size_ + 1 else s1.capacity_ }

/-- Method `pop`. -/
def pop (s : CircleBufferDynamic α) : Except Fault (α × CircleBufferDynamic α) :=
  if s.first_ = none then .error (.thrown ("Nothing to pop.\n"))
  else do
    let (_, f) ← load s.heap s.first_
    let needle := f.key
    let s1 := { s with first_ := f.next, size_ := s.size_ - 1 }
    let s2 := if s1.size_ = 0 then { s1 with first_ := none } else s1
    pure (needle, s2)

/-- A call made by a client of the buffer. -/
inductive Op (α : Type) where
  | push (element : α)
  | pop
deriving DecidableEq

/-- Run a sequence of calls, stopping at the first one that does not return normally; the
result lists the values returned by the `pop` calls, in call order, and the final state. -/
def run (s : CircleBufferDynamic α) : List (Op α) → Except Fault (List α × CircleBufferDynamic α)
  | [] => .ok ([], s)
  | Op.push v :: rest => do
    let s1 ← push s v
    run s1 rest
  | Op.pop :: rest => do
    let (needle, s1) ← pop s
    let (out, s2) ← run s1 rest
    pure (needle :: out, s2)

/-- Calls made on a buffer freshly built by `CircleBufferDynamic(size)`. -/
def runFresh (size : Int) (ops : List (Op α)) : Except Fault (List α × CircleBufferDynamic α) := do
  let s ← construct size
  run s ops

/-- Follow next-references for `n` steps from `p`: the addresses of the nodes visited, in
order, and the reference reached after the last step; `none` when the walk meets `nullptr`
before it has made `n` steps. -/
def visit (heap : List (node α)) : Nat → Option Nat → Option (List Nat × Option Nat)
  | 0, p => some ([], p)
  | n + 1, p =>
    match p with
    | none => none
    | some a =>
      match heap[a]? with
      | none => none
      | some nd =>
        match visit heap n nd.next with
        | some (seen, q) => some (a :: seen, q)
        | none => none

/-- Following next-references from `first_` visits exactly `size_` distinct nodes and then
arrives back at `first_`. -/
def liveCycle (s : CircleBufferDynamic α) : Prop :=
  match visit s.heap s.size_.toNat s.first_ with
  | some (seen, q) => s.first_ ≠ none ∧ q = s.first_ ∧ seen.Nodup
  | none => False

instance (s : CircleBufferDynamic α) : Decidable (liveCycle s) := by
  unfold liveCycle
  split <;> infer_instance

/-- The keys stored in the nodes, by address. -/
def keys (s : CircleBufferDynamic α) : List α := s.heap.map node.key

/-- The allocated nodes form one ring of `L` nodes in address order, `first_` is node `f`,
`last_` is the node before it, and all `L` nodes are live. -/
structure IsRing (s : CircleBufferDynamic α) (L f : Nat) : Prop where
  len : s.heap.length = L
  nxt : ∀ i (h : i < s.heap.length), (s.heap[i]).next = some ((i + 1) % L)
  first : s.first_ = some f
  last : s.last_ = some ((f + (L - 1)) % L)
  size : s.size_ = L
  flt : f < L
  two : 2 ≤ L

/-- Relation between a ring `s` of live nodes and the state `t` in which `safe_push` has
appended one more node holding `v`. -/
structure Grown (s : CircleBufferDynamic α) (v : α) (t : CircleBufferDynamic α) : Prop where
  len : t.heap.length = s.heap.length + 1
  nxt : ∀ i (h : i < t.heap.length), (t.heap[i]).next = some ((i + 1) % (s.heap.length + 1))
  keys : keys t = keys s ++ [v]
  first : t.first_ = s.first_
  last : t.last_ = some s.heap.length
  size : t.size_ = s.size_
  cap : t.capacity_ = s.capacity_

/-- State of a buffer of capacity `C` after the values `pre` (at least two) were pushed. -/
def PushInv (C : Nat) (pre : List α) (s : CircleBufferDynamic α) : Prop :=
  ∃ L f, IsRing s L f ∧ L = min pre.length C ∧ (L < C → f = 0) ∧
    (keys s).rotate f = pre.drop (pre.length - L) ∧ s.capacity_ = C

/-- Size bookkeeping of a buffer of capacity `C`: the bounds on `size_`, and a non-null
`first_` only together with a positive `size_`. -/
def SizeOk (C : Int) (s : CircleBufferDynamic α) : Prop :=
  s.capacity_ = C ∧ 0 ≤ s.size_ ∧ s.size_ ≤ C ∧ (s.first_ ≠ none → 1 ≤ s.size_)

/-- A call of `pop` as seen by a caller that catches the exception: what the call yields and
the state of the object after it. The `throw` is the first statement of the body and is
executed before any member is assigned. -/
def popCall (s : CircleBufferDynamic α) : Except Fault α × CircleBufferDynamic α :=
  if s.first_ = none then (.error (.thrown ("Nothing to pop.\n")), s)
  else
    match load s.heap s.first_ with
    | .error e => (.error e, s)
    | .ok (_, f) =>
      let s1 := { s with first_ := f.next, size_ := s.size_ - 1 }
      let s2 := if s1.size_ = 0 then { s1 with first_ := none } else s1
      (.ok f.key, s2)

/-- Run a sequence of calls in which the caller catches the exception of `pop` and goes on;
the run stops at the first call that accesses a member through `nullptr` or never returns. -/
def runCaught (s : CircleBufferDynamic α) : List (Op α) → Except Fault (CircleBufferDynamic α)
  | [] => .ok s
  | Op.push v :: rest =>
    match push s v with
    | .ok s1 => runCaught s1 rest
    | .error e => .error e
  | Op.pop :: rest =>
    match popCall s with
    | (.ok _, s1) => runCaught s1 rest
    | (.error (.thrown _), s1) => runCaught s1 rest
    | (.error e, _) => .error e

/-- Calls made on a buffer freshly built by `CircleBufferDynamic(size)`, with the exceptions
of `pop` caught. -/
def runCaughtFresh (size : Int) (ops : List (Op α)) : Except Fault (CircleBufferDynamic α) :=
  match construct size with
  | .ok s => runCaught s ops
  | .error e => .error e

/-- Every node at an address in `R` has a non-null next-reference to an address in `R`. -/
def Closed (heap : List (node α)) (R : Nat → Prop) : Prop :=
  ∀ x, R x → ∃ nd y, heap[x]? = some nd ∧ nd.next = some y ∧ R y

/-- Invariant of the states of a buffer of capacity `C >= 1`: `first_` is null exactly when
`size_` is zero; a non-null `first_` is either a single node without successor, with
`size_ = 1`, or lies with `last_` in a set of nodes closed under next-references. -/
def PopInv (C : Int) (s : CircleBufferDynamic α) : Prop :=
  s.capacity_ = C ∧ 0 ≤ s.size_ ∧ s.size_ ≤ C ∧ (s.first_ = none ↔ s.size_ = 0) ∧
  (C = 1 → s.last_ = none) ∧
  ∀ a, s.first_ = some a →
    (∃ nd, s.heap[a]? = some nd ∧ nd.next = none ∧ s.size_ = 1) ∨
    (∃ R : Nat → Prop, Closed s.heap R ∧ R a ∧ ∃ l, s.last_ = some l ∧ R l)

end CircleBufferDynamic

/-! ### `Array::qsort` -/

namespace ArraySort

/-- Ways `qsort` can fail to return normally. -/
inductive Fault where
  /-- an element access outside the vector, or `top` on an empty stack -/
  | outOfBounds
  /-- a loop ran longer than the iteration budget it was given -/
  | noFuel
deriving DecidableEq

/-- Read `array_[k]`; the index is a `long long`. -/
def rd (a : List Int) (k : Int) : Except Fault Int :=
  if 0 ≤ k then
    match a[k.toNat]? with
    | some x => .ok x
    | none => .error .outOfBounds
  else .error .outOfBounds

/-- `std::swap(array_[i], array_[j])`. -/
def swap (a : List Int) (i j : Int) : Except Fault (List Int) := do
  let x ← rd a i
  let y ← rd a j
  pure ((a.set i.toNat y).set j.toNat x)

/-- Loop `while (middle > array_[i]) ++i;`. -/
def scanUp (a : List Int) (middle : Int) : Nat → Int → Except Fault Int
  | 0, _ => .error .noFuel
  | fuel + 1, i => do
    let x ← rd a i
    if middle > x then scanUp a middle fuel (i + 1) else pure i

/-- Loop `while (array_[j] > middle) --j;`. -/
def scanDown (a : List Int) (middle : Int) : Nat → Int → Except Fault Int
  | 0, _ => .error .noFuel
  | fuel + 1, j => do
    let x ← rd a j
    if x > middle then scanDown a middle fuel (j - 1) else pure j

/-- Loop `while (j > i) { ... }` of the partition step. Each scan moves its index by one per
step and fails as soon as the index leaves the vector, so `a.length + 1` steps are more than
a scan can make. -/
def partitionLoop (middle : Int) : Nat → List Int → Int → Int →
    Except Fault (List Int × Int × Int)
  | 0, _, _, _ => .error .noFuel
  | fuel + 1, a, i, j =>
    if j > i then do
      let i1 ← scanUp a middle (a.length + 1) i
      let j1 ← scanDown a middle (a.length + 1) j
      if i1 ≤ j1 then do
        let a1 ← swap a i1 j1
        partitionLoop middle fuel a1 (i1 + 1) (j1 - 1)
      else
        partitionLoop middle fuel a i1 j1
    else pure (a, i, j)

/-- One iteration of `while (!indexes.empty())`, for the popped bounds `left` and `right`:
the array after the iteration and the bounds pushed on the stack (top first). -/
def qsortStep (a : List Int) (left right : Int) (rest : List Int) :
    Except Fault (List Int × List Int) := do
  let general ←
    if right - left ≠ 1 then pure true
    else do
      let x ← rd a left
      let y ← rd a right
      pure (decide (x ≤ y))
  let (a1, i, j) ←
    if general then do
      let middle ← rd a ((left + right).tdiv 2)
      partitionLoop middle (a.length + 2) a left right
    else do
      let a1 ← swap a left right
      pure (a1, left, right)
  let indexes1 := if left < j then j :: left :: rest else rest
  let indexes2 := if i < right then right :: i :: indexes1 else indexes1
  pure (a1, indexes2)

/-- Loop `while (!indexes.empty())`; `indexes` lists the stack top first. -/
def qsortLoop : Nat → List Int → List Int → Except Fault (List Int)
  | 0, _, _ => .error .noFuel
  | fuel + 1, a, indexes =>
    match indexes with
    | [] => .ok a
    | [_] => .error .outOfBounds
    | right :: left :: rest => do
      let (a1, indexes1) ← qsortStep a left right rest
      qsortLoop fuel a1 indexes1

/-- Method `Array::qsort` followed by `get()`. -/
def qsort (fuel : Nat) (array_ : List Int) : Except Fault (List Int) :=
  qsortLoop fuel array_ [(array_.length : Int) - 1, 0]

/-- Total reading of `array_[k]`, used to state facts about in-range positions. -/
def get (a : List Int) (k : Int) : Int := a.getD k.toNat 0

/-- Bounds pushed on the stack after a range was partitioned at relative positions `p`
(where the right part starts) and `q` (the length of the left part). -/
def pushed (l n p q : Nat) (rest : List Int) : List Int :=
  let indexes1 := if 1 < q then ((l : Int) + q - 1) :: (l : Int) :: rest else rest
  if p + 1 < n then ((l : Int) + n - 1) :: ((l : Int) + p) :: indexes1 else indexes1

/-- Running the main loop for `k` more iterations on the stack `right :: left :: rest`, where
`left .. right` are the positions of `seg`, replaces `seg` by `seg1` and leaves `rest`. -/
def SortsRange (pre seg post rest seg1 : List Int) (k : Nat) : Prop :=
  List.Perm seg1 seg ∧ seg1.Sorted (· ≤ ·) ∧ k + 5 ≤ 4 * seg.length ∧
  ∀ fuel, qsortLoop (fuel + k) (pre ++ seg ++ post)
      (((pre.length : Int) + seg.length - 1) :: (pre.length : Int) :: rest) =
    qsortLoop fuel (pre ++ seg1 ++ post) rest

end ArraySort

/-! ## Part 2. Theorems -/

/-! ### `CircleBuffer` -/

namespace CircleBuffer

variable {α : Type}

/-- Closed form of `correct_collision`: at most one nested call is made. -/
theorem correct_collision_eq (addition : Bool) (s : CircleBuffer α) :
    correct_collision addition s =
      if collides (wrapFirst (wrapLast s)) then
        wrapFirst (wrapLast (bump addition (wrapFirst (wrapLast s))))
      else wrapFirst (wrapLast s) := by
  rw [correct_collision]
  by_cases h : collides (wrapFirst (wrapLast s))
  · have h2 := no_second_collision addition s h
    simp only [h, dite_true, if_true]
    rw [correct_collision]
    simp only [h2, dite_false]
  · simp only [h, dite_false, if_false]

theorem correct_collision_post (addition : Bool) (s : CircleBuffer α) (hc : 0 < s.capacity_) :
    (correct_collision addition s).capacity_ = s.capacity_ ∧
    (correct_collision addition s).storage_ = s.storage_ ∧
    0 ≤ (correct_collision addition s).first_ ∧
    (correct_collision addition s).first_ < s.capacity_ ∧
    0 ≤ (correct_collision addition s).last_ ∧
    (correct_collision addition s).last_ < s.capacity_ ∧
    (1 < s.capacity_ →
      (correct_collision addition s).first_ ≠ (correct_collision addition s).last_) := by
  rw [correct_collision_eq]
  have hw := wrap_capacity s
  have hr := wrap_range s hc
  by_cases h : collides (wrapFirst (wrapLast s))
  · simp only [h, if_true]
    have hb : (bump addition (wrapFirst (wrapLast s))).capacity_ = s.capacity_ ∧
        (bump addition (wrapFirst (wrapLast s))).storage_ = s.storage_ := by
      cases addition <;> simp [bump, hw.1, hw.2]
    have hw2 := wrap_capacity (bump addition (wrapFirst (wrapLast s)))
    have hr2 := wrap_range (bump addition (wrapFirst (wrapLast s))) (by omega)
    rw [hb.1] at hr2
    refine ⟨hw2.1.trans hb.1, hw2.2.trans hb.2, hr2.1, hr2.2.1, hr2.2.2.1, hr2.2.2.2, ?_⟩
    intro _
    exact Ne.symm (wrap_bump_ne addition (wrapFirst (wrapLast s)) h.2 (by omega)
      (by rw [hw.1]; omega) h.1)
  · simp only [h, if_false]
    refine ⟨hw.1, hw.2, hr.1, hr.2.1, hr.2.2.1, hr.2.2.2, ?_⟩
    intro h1 he
    exact h ⟨he.symm, by rw [hw.1]; exact h1⟩

theorem push_post (C : Int) (hC : 1 ≤ C) (s : CircleBuffer α) (v : α) (hs : CursorsOk C s) :
    ∃ s1, push s v = some s1 ∧ CursorsOk C s1 ∧ (2 ≤ C → s1.first_ ≠ s1.last_) := by
  obtain ⟨h1, h2, h3, h4, h5, h6⟩ := hs
  have hne : s.capacity_ ≠ 0 := by omega
  have hb : 0 ≤ s.last_ ∧ s.last_.toNat < s.storage_.length := by
    refine ⟨h5, ?_⟩
    rw [h2]; omega
  obtain ⟨p1, p2, p3, p4, p5, p6, p7⟩ := correct_collision_post true
    { s with storage_ := s.storage_.set s.last_.toNat v, last_ := s.last_ + 1 }
    (by show 0 < s.capacity_; omega)
  refine ⟨correct_collision true
    { s with storage_ := s.storage_.set s.last_.toNat v, last_ := s.last_ + 1 }, ?_, ?_, ?_⟩
  · simp only [push, hne, hb, if_false, and_self, if_true]
  · refine ⟨p1.trans h1, ?_, p3, lt_of_lt_of_eq p4 h1, p5, lt_of_lt_of_eq p6 h1⟩
    rw [p2]; simpa using h2
  · intro h; exact p7 (by show 1 < s.capacity_; omega)

theorem pop_post (C : Int) (hC : 1 ≤ C) (s : CircleBuffer α) (hs : CursorsOk C s) :
    ∃ x s1, pop s = some (x, s1) ∧ CursorsOk C s1 ∧ (2 ≤ C → s1.first_ ≠ s1.last_) := by
  obtain ⟨h1, h2, h3, h4, h5, h6⟩ := hs
  have hlt : s.first_.toNat < s.storage_.length := by rw [h2]; omega
  obtain ⟨p1, p2, p3, p4, p5, p6, p7⟩ := correct_collision_post false
    { s with first_ := s.first_ + 1 } (by show 0 < s.capacity_; omega)
  refine ⟨s.storage_[s.first_.toNat],
    correct_collision false { s with first_ := s.first_ + 1 }, ?_, ?_, ?_⟩
  · simp only [pop, h3, if_true, List.getElem?_eq_getElem hlt]
  · refine ⟨p1.trans h1, ?_, p3, lt_of_lt_of_eq p4 h1, p5, lt_of_lt_of_eq p6 h1⟩
    rw [p2]; exact h2
  · intro h; exact p7 (by show 1 < s.capacity_; omega)

theorem run_post (C : Int) (hC : 1 ≤ C) (ops : List (Op α)) :
    ∀ s : CircleBuffer α, CursorsOk C s → (2 ≤ C → s.first_ ≠ s.last_) →
      ∃ out s1, run s ops = some (out, s1) ∧ CursorsOk C s1 ∧ (2 ≤ C → s1.first_ ≠ s1.last_) := by
  induction ops with
  | nil => intro s hs hne; exact ⟨[], s, rfl, hs, hne⟩
  | cons op rest ih =>
    intro s hs _
    cases op with
    | push v =>
      obtain ⟨s1, e1, k1, k2⟩ := push_post C hC s v hs
      obtain ⟨out, s2, e2, k3, k4⟩ := ih s1 k1 k2
      exact ⟨out, s2, by simp only [run, e1, e2], k3, k4⟩
    | pop =>
      obtain ⟨x, s1, e1, k1, k2⟩ := pop_post C hC s hs
      obtain ⟨out, s2, e2, k3, k4⟩ := ih s1 k1 k2
      exact ⟨x :: out, s2, by simp only [run, e1, e2], k3, k4⟩

theorem cursor_invariant_last (C : Int) (mem : Nat → α) (ops : List (Op α)) (hC : 1 ≤ C)
    (hops : ops ≠ []) :
    ∃ out s, runFresh C mem ops = some (out, s) ∧
      0 ≤ s.first_ ∧ s.first_ < C ∧ 0 ≤ s.last_ ∧ s.last_ < C ∧
      (2 ≤ C → s.first_ ≠ s.last_) := by
  have hfresh : construct C.toNat C mem = .ok ⟨C, (List.range C.toNat).map mem, 0, 0⟩ := by
    simp only [construct]; rw [if_neg (by omega), if_neg (lt_irrefl _)]
  have hok : CursorsOk C (⟨C, (List.range C.toNat).map mem, 0, 0⟩ : CircleBuffer α) :=
    ⟨rfl, by simp, le_refl _, by show (0 : Int) < C; omega, le_refl _,
      by show (0 : Int) < C; omega⟩
  cases ops with
  | nil => exact absurd rfl hops
  | cons op rest =>
    cases op with
    | push v =>
      obtain ⟨s1, e1, k1, k2⟩ := push_post C hC _ v hok
      obtain ⟨out, s2, e2, k3, k4⟩ := run_post C hC rest s1 k1 k2
      exact ⟨out, s2, by simp only [runFresh, hfresh, run, e1, e2], k3.2.2.1, k3.2.2.2.1,
        k3.2.2.2.2.1, k3.2.2.2.2.2, k4⟩
    | pop =>
      obtain ⟨x, s1, e1, k1, k2⟩ := pop_post C hC _ hok
      obtain ⟨out, s2, e2, k3, k4⟩ := run_post C hC rest s1 k1 k2
      exact ⟨x :: out, s2, by simp only [runFresh, hfresh, run, e1, e2], k3.2.2.1, k3.2.2.2.1,
        k3.2.2.2.2.1, k3.2.2.2.2.2, k4⟩

/-- Claim C8 (fixed buffer cursor invariant). For every capacity `C >= 1`, every content of
the freshly allocated storage and every sequence `ops` of `push` and `pop` calls on a freshly
constructed `CircleBuffer(C)`: after each call (the `k`-th call, for every `1 <= k <= ops.length`)
has returned, the calls made so far all returned normally and the cursors satisfy
`0 <= first_ < C` and `0 <= last_ < C`, and `first_ != last_` when `C >= 2`. -/
theorem cursor_invariant (C : Int) (mem : Nat → α) (ops : List (Op α)) (k : Nat)
    (hC : 1 ≤ C) (hk : 0 < k) (hkl : k ≤ ops.length) :
    ∃ out s, runFresh C mem (ops.take k) = some (out, s) ∧
      0 ≤ s.first_ ∧ s.first_ < C ∧ 0 ≤ s.last_ ∧ s.last_ < C ∧
      (2 ≤ C → s.first_ ≠ s.last_) := by
  apply cursor_invariant_last C mem (ops.take k) hC
  intro h
  have := congrArg List.length h
  simp only [List.length_take, List.length_nil] at this
  omega

/-- Witness for `cursor_invariant`: capacity 3, the calls `push(1)`, `pop()`, observed after
the second call. -/
theorem cursor_invariant_witness :
    (1 : Int) ≤ 3 ∧ 0 < 2 ∧ 2 ≤ [Op.push (1 : Int), Op.pop].length ∧
    ∃ out s, runFresh (3 : Int) (fun _ => (0 : Int)) ([Op.push (1 : Int), Op.pop].take 2) =
        some (out, s) ∧
      0 ≤ s.first_ ∧ s.first_ < 3 ∧ 0 ≤ s.last_ ∧ s.last_ < 3 ∧
      ((2 : Int) ≤ 3 → s.first_ ≠ s.last_) :=
  ⟨by decide, by decide, by decide,
    cursor_invariant 3 (fun _ => 0) [Op.push 1, Op.pop] 2 (by decide) (by decide) (by decide)⟩

/-- Claim C1 (fixed buffer FIFO order) fails on the code when `n` equals the capacity:
`CircleBuffer(2)`, whatever the allocated storage holds, then `push(1)`, `push(2)`, `pop()`,
`pop()` returns `2` and then `1`, not `1` and then `2`: the second `push` already moves
`first_` past the slot that holds `1`. -/
theorem fifo_at_capacity_reversed (mem : Nat → Int) :
    (runFresh 2 mem [Op.push 1, Op.push 2, Op.pop, Op.pop]).map Prod.fst = some [2, 1] := by
  simp [runFresh, construct, run, push, pop, correct_collision_eq, wrapFirst, wrapLast, bump,
    collides, List.range, List.range.loop]

/-- Claim C5 (fixed buffer under interleaved use) fails on the code: `CircleBuffer(3)`, then
`push(1)`, `pop()`, `push(2)`, `pop()` never holds more than one value, yet the second `pop`
returns the initial content `mem 1` of slot 1, which no `push` has written, instead of `2`:
the first `pop` empties the buffer and `correct_collision` then advances `last_` as well, so
the next `push` stores its value one slot after `first_`. -/
theorem interleaved_reads_unwritten_slot (mem : Nat → Int) :
    (runFresh 3 mem [Op.push 1, Op.pop, Op.push 2, Op.pop]).map Prod.fst =
      some [1, mem 1] := by
  simp [runFresh, construct, run, push, pop, correct_collision_eq, wrapFirst, wrapLast, bump,
    collides, List.range, List.range.loop]

/-- Every state reached from a fresh buffer of capacity `C >= 1` satisfies the cursor
invariant. -/
theorem reachable_cursorsOk (C : Int) (hC : 1 ≤ C) (mem : Nat → α) (ops : List (Op α))
    (out : List α) (s : CircleBuffer α) (h : runFresh C mem ops = some (out, s)) :
    CursorsOk C s := by
  have hfresh : construct C.toNat C mem = .ok ⟨C, (List.range C.toNat).map mem, 0, 0⟩ := by
    simp only [construct]; rw [if_neg (by omega), if_neg (lt_irrefl _)]
  have hok : CursorsOk C (⟨C, (List.range C.toNat).map mem, 0, 0⟩ : CircleBuffer α) :=
    ⟨rfl, by simp, le_refl _, by show (0 : Int) < C; omega, le_refl _,
      by show (0 : Int) < C; omega⟩
  simp only [runFresh, hfresh] at h
  cases ops with
  | nil =>
    simp only [run, Option.some.injEq, Prod.mk.injEq] at h
    rw [← h.2]; exact hok
  | cons op rest =>
    cases op with
    | push v =>
      obtain ⟨s1, e1, k1, k2⟩ := push_post C hC _ v hok
      obtain ⟨out2, s2, e2, k3, -⟩ := run_post C hC rest s1 k1 k2
      simp only [run, e1, e2, Option.some.injEq, Prod.mk.injEq] at h
      rw [← h.2]; exact k3
    | pop =>
      obtain ⟨x, s1, e1, k1, k2⟩ := pop_post C hC _ hok
      obtain ⟨out2, s2, e2, k3, -⟩ := run_post C hC rest s1 k1 k2
      simp only [run, e1, e2, Option.some.injEq, Prod.mk.injEq] at h
      rw [← h.2]; exact k3

/-- In a buffer of capacity 1 that satisfies the cursor invariant, `push(v)` stores `v` in
slot 0 and leaves both cursors at 0. -/
theorem push_capacity_one (s : CircleBuffer α) (v : α) (hs : CursorsOk 1 s) :
    push s v = some ⟨1, s.storage_.set 0 v, 0, 0⟩ := by
  obtain ⟨h1, h2, h3, h4, h5, h6⟩ := hs
  have hf : s.first_ = 0 := by omega
  have hl : s.last_ = 0 := by omega
  have hlen : 0 < s.storage_.length := by rw [h2]; decide
  obtain ⟨c, st, f, l⟩ := s
  simp only at h1 hf hl hlen
  subst h1 hf hl
  simp [push, hlen, correct_collision_eq, wrapFirst, wrapLast, collides]

/-- Claim C12 (fixed buffer of capacity 1 holds exactly the last pushed value). For every
state reached from `CircleBuffer(1)` by a sequence of `push` and `pop` calls and every value
`v`: `push(v)` returns normally, `operator[](0)` called right after it yields `v`, and `pop()`
called right after it returns `v`. -/
theorem capacity_one_holds_last (mem : Nat → α) (ops : List (Op α)) (out : List α)
    (s : CircleBuffer α) (v : α) (h : runFresh 1 mem ops = some (out, s)) :
    ∃ s1, push s v = some s1 ∧ subscript s1 0 = .ok v ∧ ∃ s2, pop s1 = some (v, s2) := by
  have hs := reachable_cursorsOk 1 (le_refl _) mem ops out s h
  have hlen : 0 < s.storage_.length := by rw [hs.2.1]; decide
  have hget : (s.storage_.set 0 v)[0]? = some v := by
    rw [List.getElem?_set_self hlen]
  refine ⟨_, push_capacity_one s v hs, ?_, ?_⟩
  · simp [subscript, hget]
  · simp [pop, hget]

/-- Witness for `capacity_one_holds_last`: the state after `push(4)`, `pop()`, `push(5)` on
`CircleBuffer(1)`, and the value 9. -/
theorem capacity_one_holds_last_witness :
    runFresh 1 (fun _ => (0 : Int)) [Op.push 4, Op.pop, Op.push 5] =
      some ([4], ⟨1, [5], 0, 0⟩) ∧
    ∃ s1, push (⟨1, [5], 0, 0⟩ : CircleBuffer Int) 9 = some s1 ∧ subscript s1 0 = .ok 9 ∧
      ∃ s2, pop s1 = some (9, s2) :=
  have h : runFresh 1 (fun _ => (0 : Int)) [Op.push 4, Op.pop, Op.push 5] =
      some ([4], ⟨1, [5], 0, 0⟩) := by
    simp [runFresh, construct, run, push, pop, correct_collision_eq, wrapFirst, wrapLast,
      collides, List.range, List.range.loop]
  ⟨h, capacity_one_holds_last (fun _ => 0) [Op.push 4, Op.pop, Op.push 5] [4] _ 9 h⟩

/-- Claim C16 (fixed buffer peek contract). For every buffer state of capacity `C >= 1` that
satisfies the cursor invariant and every index `i`: `operator[](i)` fails with the
invalid-index error if and only if `i != 0`; `operator[](0)` returns the value stored at slot
`first_`, and a `pop()` made in the same state returns that same value. `operator[]` is a
`const` method, modelled as a function of the state alone, so `capacity_`, `first_`, `last_`
and the storage are the same before and after the call. -/
theorem peek_contract (C : Int) (s : CircleBuffer α) (i : Int) (hC : 1 ≤ C)
    (hs : CursorsOk C s) :
    (subscript s i = .error (.thrown ("Invalid index.\n")) ↔ i ≠ 0) ∧
    ∃ x, s.storage_[s.first_.toNat]? = some x ∧ subscript s 0 = .ok x ∧
      ∃ s1, pop s = some (x, s1) := by
  obtain ⟨h1, h2, h3, h4, h5, h6⟩ := hs
  have hlt : s.first_.toNat < s.storage_.length := by rw [h2]; omega
  have hget : s.storage_[s.first_.toNat]? = some s.storage_[s.first_.toNat] :=
    List.getElem?_eq_getElem hlt
  refine ⟨?_, s.storage_[s.first_.toNat], hget, ?_, ?_⟩
  · by_cases hi : i = 0
    · subst hi
      simp [subscript, h3, hget]
    · simp [subscript, hi]
  · simp [subscript, h3, hget]
  · exact ⟨correct_collision false { s with first_ := s.first_ + 1 },
      by simp only [pop, h3, if_true, hget]⟩

/-- Witness for `peek_contract`: capacity 2, storage `[7, 8]`, `first_ = 1`, `last_ = 0`,
index 3. -/
theorem peek_contract_witness :
    (1 : Int) ≤ 2 ∧ CursorsOk 2 (⟨2, [7, 8], 1, 0⟩ : CircleBuffer Int) ∧
    ((subscript (⟨2, [7, 8], 1, 0⟩ : CircleBuffer Int) 3 = .error (.thrown ("Invalid index.\n"))
        ↔ (3 : Int) ≠ 0) ∧
      ∃ x, ([7, 8] : List Int)[(1 : Int).toNat]? = some x ∧
        subscript (⟨2, [7, 8], 1, 0⟩ : CircleBuffer Int) 0 = .ok x ∧
        ∃ s1, pop (⟨2, [7, 8], 1, 0⟩ : CircleBuffer Int) = some (x, s1)) :=
  have hs : CursorsOk 2 (⟨2, [7, 8], 1, 0⟩ : CircleBuffer Int) := by
    refine ⟨rfl, rfl, ?_, ?_, ?_, ?_⟩ <;> decide
  ⟨by decide, hs, peek_contract 2 ⟨2, [7, 8], 1, 0⟩ 3 (by decide) hs⟩

/-- For a capacity of at least 1, no sequence of `push`, `pop` and `operator[]` calls on a
fresh buffer reads or writes outside the storage array. -/
theorem calls_defined_of_positive_capacity (C : Int) (hC : 1 ≤ C) (calls : List (Call α)) :
    ∀ s : CircleBuffer α, CursorsOk C s → ∃ t, runCalls s calls = some t ∧ CursorsOk C t := by
  induction calls with
  | nil => intro s hs; exact ⟨s, rfl, hs⟩
  | cons c rest ih =>
    intro s hs
    cases c with
    | push v =>
      obtain ⟨s1, e1, k1, -⟩ := push_post C hC s v hs
      obtain ⟨t, e2, k2⟩ := ih s1 k1
      exact ⟨t, by simp only [runCalls, e1, e2], k2⟩
    | pop =>
      obtain ⟨x, s1, e1, k1, -⟩ := pop_post C hC s hs
      obtain ⟨t, e2, k2⟩ := ih s1 k1
      exact ⟨t, by simp only [runCalls, e1, e2], k2⟩
    | subscript i =>
      obtain ⟨t, e2, k2⟩ := ih s hs
      obtain ⟨p1, x, -, p2, -⟩ := peek_contract C s i hC hs
      refine ⟨t, ?_, k2⟩
      by_cases hi : i = 0
      · subst hi
        simp only [runCalls, p2, e2]
      · simp only [runCalls, p1.2 hi, e2]

/-- Claim C14 (fixed buffer storage accesses are defined for every capacity) fails on the
code for capacity 0. On `CircleBuffer(0)` a `push` changes nothing, as claimed, but `pop()`
reads `storage_[0]` and `operator[](0)` refers to `storage_[0]` although the storage array has
no slot: both are accesses outside the array. -/
theorem capacity_zero_pop_reads_outside (maxLen : Nat) (mem : Nat → Int) :
    construct maxLen 0 mem = .ok ⟨0, [], 0, 0⟩ ∧
    (∀ v : Int, push (⟨0, [], 0, 0⟩ : CircleBuffer Int) v = some ⟨0, [], 0, 0⟩) ∧
    pop (⟨0, [], 0, 0⟩ : CircleBuffer Int) = none ∧
    subscript (⟨0, [], 0, 0⟩ : CircleBuffer Int) 0 = .error .outOfBounds ∧
    runCallsFresh 0 mem [Call.pop] = none ∧
    runCallsFresh 0 mem [Call.subscript 0] = none := by
  refine ⟨by simp [construct], fun v => rfl, rfl, rfl, rfl, rfl⟩

theorem wrapLast_zero (s : CircleBuffer α) (h0 : s.capacity_ = 0) :
    wrapLast s = ⟨0, s.storage_, s.first_, if 0 ≤ s.last_ then 0 else -1⟩ := by
  obtain ⟨c, st, f, l⟩ := s
  simp only at h0
  subst h0
  simp only [wrapLast]
  split_ifs <;> simp <;> omega

theorem wrapFirst_zero (s : CircleBuffer α) (h0 : s.capacity_ = 0) :
    wrapFirst s = ⟨0, s.storage_, if 0 ≤ s.first_ then 0 else -1, s.last_⟩ := by
  obtain ⟨c, st, f, l⟩ := s
  simp only at h0
  subst h0
  simp only [wrapFirst]
  split_ifs <;> simp <;> omega

/-- Claim C17 (collision recovery is idempotent). For every capacity `C >= 0`, all integers
`first_` and `last_`, in range or not, and either operation tag: after `correct_collision`
has run, running `correct_collision(0)` (the removal tag) again changes nothing. -/
theorem correct_collision_idempotent (addition : Bool) (s : CircleBuffer α)
    (hC : 0 ≤ s.capacity_) :
    correct_collision false (correct_collision addition s) = correct_collision addition s := by
  by_cases h0 : s.capacity_ = 0
  · have hnc : ∀ t : CircleBuffer α, t.capacity_ = 0 → ¬ collides t := by
      intro t ht hc
      have := hc.2
      omega
    have hw := wrap_capacity s
    have e1 : correct_collision addition s = wrapFirst (wrapLast s) := by
      rw [correct_collision_eq, if_neg (hnc _ (by rw [hw.1]; exact h0))]
    have e2 : (wrapFirst (wrapLast s)).capacity_ = 0 := by rw [hw.1]; exact h0
    have hw2 := wrap_capacity (wrapFirst (wrapLast s))
    rw [e1, correct_collision_eq, if_neg (hnc _ (by rw [hw2.1]; exact e2))]
    have q1 := wrapLast_zero s h0
    have q2 := wrapFirst_zero (wrapLast s) (by rw [q1])
    rw [q1] at q2
    simp only at q2
    rw [q1, q2, wrapLast_zero _ rfl, wrapFirst_zero _ rfl]
    simp only
    congr 1 <;> split_ifs <;> first | rfl | (exfalso; omega)
  · obtain ⟨p1, p2, p3, p4, p5, p6, p7⟩ := correct_collision_post addition s (by omega)
    have e1 : wrapLast (correct_collision addition s) = correct_collision addition s :=
      (wrapLast_spec _).2.2.2.2 p5 (by rw [p1]; exact p6)
    have e2 : wrapFirst (correct_collision addition s) = correct_collision addition s :=
      (wrapFirst_spec _).2.2.2.2 p3 (by rw [p1]; exact p4)
    have e3 : ¬ collides (correct_collision addition s) := by
      intro hc
      exact p7 (by have := hc.2; rw [p1] at this; omega) hc.1.symm
    conv_lhs => rw [correct_collision_eq]
    rw [e1, e2, if_neg e3]

/-- Witness for `correct_collision_idempotent`: capacity 3, `first_ = 5`, `last_ = -2`, the
insertion tag. -/
theorem correct_collision_idempotent_witness :
    (0 : Int) ≤ (⟨3, [1, 2, 3], 5, -2⟩ : CircleBuffer Int).capacity_ ∧
    correct_collision false (correct_collision true (⟨3, [1, 2, 3], 5, -2⟩ : CircleBuffer Int))
      = correct_collision true (⟨3, [1, 2, 3], 5, -2⟩ : CircleBuffer Int) :=
  ⟨by decide, correct_collision_idempotent true ⟨3, [1, 2, 3], 5, -2⟩ (by decide)⟩

theorem wrapLast_top (C : Int) (st : List α) (f : Int) (hC : 2 ≤ C) :
    wrapLast (⟨C, st, f, C⟩ : CircleBuffer α) = ⟨C, st, if f = 0 then 1 else f, 0⟩ := by
  simp only [wrapLast]
  split_ifs <;> simp <;> omega

theorem wrapFirst_top (C : Int) (st : List α) (l : Int) (hC : 2 ≤ C) :
    wrapFirst (⟨C, st, C, l⟩ : CircleBuffer α) = ⟨C, st, 0, if l = 0 then 1 else l⟩ := by
  simp only [wrapFirst]
  split_ifs <;> simp <;> omega

theorem wrapLast_id (C : Int) (st : List α) (f l : Int) (h0 : 0 ≤ l) (h1 : l < C) :
    wrapLast (⟨C, st, f, l⟩ : CircleBuffer α) = ⟨C, st, f, l⟩ :=
  (wrapLast_spec _).2.2.2.2 h0 h1

theorem wrapFirst_id (C : Int) (st : List α) (f l : Int) (h0 : 0 ≤ f) (h1 : f < C) :
    wrapFirst (⟨C, st, f, l⟩ : CircleBuffer α) = ⟨C, st, f, l⟩ :=
  (wrapFirst_spec _).2.2.2.2 h0 h1

/-- Cursors after the `correct_collision(1)` of a `push`, for in-range cursors. -/
theorem push_cursors (C : Int) (st : List α) (f l : Int) (hC : 2 ≤ C)
    (hf0 : 0 ≤ f) (hf1 : f < C) (hl0 : 0 ≤ l) (hl1 : l < C) :
    correct_collision true (⟨C, st, f, l + 1⟩ : CircleBuffer α) =
      ⟨C, st,
        if (if l + 1 = C then 0 else l + 1) = f then (if f + 1 = C then 0 else f + 1) else f,
        if l + 1 = C then 0 else l + 1⟩ := by
  rw [correct_collision_eq]
  by_cases hA : l + 1 = C
  · rw [hA, wrapLast_top C st f hC]
    by_cases hf : f = 0
    · subst hf
      rw [if_pos rfl, wrapFirst_id C st 1 0 (by omega) (by omega)]
      rw [if_neg (by simp [collides]), if_pos rfl, if_pos rfl, if_neg (by omega), zero_add]
    · rw [if_neg hf, wrapFirst_id C st f 0 hf0 hf1]
      rw [if_neg (by simp [collides]; omega), if_pos rfl, if_neg (Ne.symm hf)]
  · rw [wrapLast_id C st f (l + 1) (by omega) (by omega),
      wrapFirst_id C st f (l + 1) hf0 hf1]
    by_cases hB : l + 1 = f
    · rw [if_pos (by simp [collides]; omega)]
      have hb : bump true (⟨C, st, f, l + 1⟩ : CircleBuffer α) = ⟨C, st, f + 1, l + 1⟩ := by
        simp [bump]
      rw [hb, wrapLast_id C st (f + 1) (l + 1) (by omega) (by omega)]
      by_cases hD : f + 1 = C
      · rw [hD, wrapFirst_top C st (l + 1) hC, if_neg (by omega), if_neg hA, if_pos hB,
          if_pos rfl]
      · rw [wrapFirst_id C st (f + 1) (l + 1) (by omega) (by omega), if_neg hA, if_pos hB,
          if_neg hD]
    · rw [if_neg (by simp [collides]; omega), if_neg hA, if_neg hB]

/-- Cursors after the `correct_collision(0)` of a `pop` that does not empty the buffer. -/
theorem pop_cursors (C : Int) (st : List α) (f l : Int) (hC : 2 ≤ C)
    (hf0 : 0 ≤ f) (hf1 : f < C) (hl0 : 0 ≤ l) (hl1 : l < C)
    (hne : (if f + 1 = C then 0 else f + 1) ≠ l) :
    correct_collision false (⟨C, st, f + 1, l⟩ : CircleBuffer α) =
      ⟨C, st, if f + 1 = C then 0 else f + 1, l⟩ := by
  rw [correct_collision_eq, wrapLast_id C st (f + 1) l hl0 hl1]
  by_cases hD : f + 1 = C
  · rw [if_pos hD] at hne
    rw [hD, wrapFirst_top C st l hC, if_neg (Ne.symm hne), if_neg (by simp [collides]; omega),
      if_pos rfl]
  · rw [if_neg hD] at hne
    rw [wrapFirst_id C st (f + 1) l (by omega) (by omega),
      if_neg (by simp [collides]; omega), if_neg hD]

theorem succ_mod_nat (C m : Nat) (hC : 2 ≤ C) :
    (m + 1) % C = if m % C + 1 = C then 0 else m % C + 1 := by
  have hlt : m % C < C := Nat.mod_lt _ (by omega)
  have h1 : (m + 1) % C = (m % C + 1) % C := by
    rw [Nat.add_mod, Nat.mod_eq_of_lt (show 1 < C by omega)]
  by_cases h : m % C + 1 = C
  · rw [if_pos h, h1, h, Nat.mod_self]
  · rw [if_neg h, h1, Nat.mod_eq_of_lt (by omega)]

/-- Method `push` on a buffer of capacity `C >= 2` with in-range cursors `f` and `l`. -/
theorem push_nat (C : Nat) (hC : 2 ≤ C) (st : List α) (hst : st.length = C) (f l : Nat)
    (hf : f < C) (hl : l < C) (v : α) :
    push (⟨C, st, f, l⟩ : CircleBuffer α) v =
      some ⟨C, st.set l v,
        ((if (if l + 1 = C then 0 else l + 1) = f then (if f + 1 = C then 0 else f + 1)
          else f : Nat) : Int),
        ((if l + 1 = C then 0 else l + 1 : Nat) : Int)⟩ := by
  have hc := push_cursors (C : Int) (st.set l v) f l (by omega) (by omega) (by omega)
    (by omega) (by omega)
  simp only [push]
  rw [if_neg (by simp; omega), if_pos ⟨by simp, by simp; omega⟩]
  simp only [Int.toNat_ofNat]
  rw [hc]
  have e1 : (if (l : Int) + 1 = C then (0 : Int) else l + 1) =
      ((if l + 1 = C then 0 else l + 1 : Nat) : Int) := by
    split_ifs <;> first | rfl | omega
  have e2 : (if (f : Int) + 1 = C then (0 : Int) else f + 1) =
      ((if f + 1 = C then 0 else f + 1 : Nat) : Int) := by
    split_ifs <;> first | rfl | omega
  rw [e1, e2]
  congr 2
  split_ifs <;> first | rfl | omega

/-- Method `pop` on a buffer of capacity `C >= 2` with in-range cursors `f` and `l`, when
the slot after `f` is not `l`. -/
theorem pop_nat (C : Nat) (hC : 2 ≤ C) (st : List α) (hst : st.length = C) (f l : Nat)
    (hf : f < C) (hl : l < C) (x : α) (hx : st[f]? = some x)
    (hne : (if f + 1 = C then 0 else f + 1) ≠ l) :
    pop (⟨C, st, f, l⟩ : CircleBuffer α) =
      some (x, ⟨C, st, ((if f + 1 = C then 0 else f + 1 : Nat) : Int), l⟩) := by
  have hc := pop_cursors (C : Int) st f l (by omega) (by omega) (by omega)
    (by omega) (by omega) (by split_ifs <;> split_ifs at hne <;> omega)
  simp only [pop]
  rw [if_pos (by simp)]
  simp only [Int.toNat_ofNat, hx]
  rw [hc]
  have e2 : (if (f : Int) + 1 = C then (0 : Int) else f + 1) =
      ((if f + 1 = C then 0 else f + 1 : Nat) : Int) := by
    split_ifs <;> first | rfl | omega
  rw [e2]

/-- State after the values `vs` were pushed on a fresh buffer of capacity `C >= 2`: the
cursors, and the slots that hold the last `C - 1` values. -/
theorem pushes_state (C : Nat) (hC : 2 ≤ C) (st0 : List α) (h0 : st0.length = C)
    (vs : List α) :
    ∃ st : List α, st.length = C ∧
      (∀ i (hi : i < vs.length), vs.length ≤ i + (C - 1) → st[i % C]? = some vs[i]) ∧
      ∀ rest, run ⟨C, st0, 0, 0⟩ (vs.map Op.push ++ rest) =
        run ⟨C, st, ((if vs.length < C then 0 else (vs.length + 1) % C : Nat) : Int),
          ((vs.length % C : Nat) : Int)⟩ rest := by
  induction vs using List.reverseRecOn with
  | nil =>
    refine ⟨st0, h0, fun i hi => absurd hi (by simp), fun rest => ?_⟩
    simp only [List.map_nil, List.nil_append, List.length_nil, Nat.zero_mod, Nat.cast_zero]
    rw [if_pos (by omega)]
    rfl
  | append_singleton init v ih =>
    obtain ⟨st, hst, hcont, hrun⟩ := ih
    have hlt : init.length % C < C := Nat.mod_lt _ (by omega)
    have hlt1 : (init.length + 1) % C < C := Nat.mod_lt _ (by omega)
    refine ⟨st.set (init.length % C) v, by simpa using hst, ?_, fun rest => ?_⟩
    · intro i hi hle
      simp only [List.length_append, List.length_singleton] at hi hle
      by_cases him : i = init.length
      · subst him
        rw [List.getElem?_set_self (by omega)]
        simp
      · have hi2 : i < init.length := by omega
        have hne : init.length % C ≠ i % C := by
          intro he
          have h1 : (init.length - i) % C = 0 := Nat.sub_mod_eq_zero_of_mod_eq he
          have h2 := Nat.mod_eq_of_lt (show init.length - i < C by omega)
          omega
        rw [List.getElem?_set_ne hne, hcont i hi2 (by omega)]
        simp [List.getElem_append_left hi2]
    · rw [List.map_append, List.append_assoc, hrun]
      simp only [List.map_cons, List.map_nil, List.singleton_append, run,
        List.length_append, List.length_singleton]
      rw [push_nat C hC st hst _ _ (by split_ifs <;> omega) hlt v]
      have e1 := succ_mod_nat C init.length hC
      have e2 := succ_mod_nat C (init.length + 1) hC
      have e3 : init.length < C → init.length % C = init.length := Nat.mod_eq_of_lt
      have hfirst : (if (if init.length % C + 1 = C then 0 else init.length % C + 1) =
            (if init.length < C then 0 else (init.length + 1) % C)
          then (if (if init.length < C then 0 else (init.length + 1) % C) + 1 = C then 0
            else (if init.length < C then 0 else (init.length + 1) % C) + 1)
          else (if init.length < C then 0 else (init.length + 1) % C)) =
          (if init.length + 1 < C then 0 else (init.length + 1 + 1) % C) := by
        generalize init.length % C = a at *
        generalize (init.length + 1) % C = b at *
        generalize (init.length + 1 + 1) % C = c at *
        split_ifs at * <;> omega
      rw [hfirst, ← e1]
      rfl

theorem pop_some (s : CircleBuffer α) (x : α) (h0 : 0 ≤ s.first_)
    (hx : s.storage_[s.first_.toNat]? = some x) :
    pop s = some (x, correct_collision false { s with first_ := s.first_ + 1 }) := by
  simp only [pop, if_pos h0, hx]

/-- Values returned by the last `k` of the `C - 1` calls of `pop` that follow the pushes of
`vs`. -/
theorem pops_values (C : Nat) (hC : 2 ≤ C) (st : List α) (hst : st.length = C) (vs : List α)
    (hm : C - 1 ≤ vs.length)
    (hcont : ∀ i (hi : i < vs.length), vs.length ≤ i + (C - 1) → st[i % C]? = some vs[i]) :
    ∀ (k j : Nat) (s : CircleBuffer α), j + k = C - 1 → CursorsOk C s →
      (1 ≤ k → s = ⟨C, st, (((vs.length + 1 + j) % C : Nat) : Int),
        ((vs.length % C : Nat) : Int)⟩) →
      ∃ s1, run s (List.replicate k Op.pop) = some (vs.drop (vs.length + 1 - C + j), s1) := by
  intro k
  induction k with
  | zero =>
    intro j s hj _ _
    refine ⟨s, ?_⟩
    rw [List.drop_eq_nil_of_le (by omega)]
    rfl
  | succ k ih =>
    intro j s hj hok hs
    have hs := hs (by omega)
    subst hs
    have hi : vs.length + 1 - C + j < vs.length := by omega
    have hmod : (vs.length + 1 - C + j) % C = (vs.length + 1 + j) % C := by
      rw [show vs.length + 1 + j = (vs.length + 1 - C + j) + C by omega, Nat.add_mod_right]
    have hx := hcont _ hi (by omega)
    rw [hmod] at hx
    have hf1 : (vs.length + 1 + j) % C < C := Nat.mod_lt _ (by omega)
    have hl1 : vs.length % C < C := Nat.mod_lt _ (by omega)
    rw [List.drop_eq_getElem_cons hi]
    simp only [List.replicate_succ, run]
    by_cases hk : k = 0
    · subst hk
      have hx1 : st[Int.toNat (((vs.length + 1 + j) % C : Nat) : Int)]? =
          some vs[vs.length + 1 - C + j] := by
        rw [Int.toNat_ofNat]; exact hx
      rw [pop_some _ (vs[vs.length + 1 - C + j]) hok.2.2.1 hx1,
        List.drop_eq_nil_of_le (show vs.length ≤ vs.length + 1 - C + j + 1 by omega)]
      exact ⟨_, rfl⟩
    · have hne : (if (vs.length + 1 + j) % C + 1 = C then 0
          else (vs.length + 1 + j) % C + 1) ≠ vs.length % C := by
        rw [← succ_mod_nat C _ hC]
        intro he
        have h1 : (vs.length + 1 + j + 1 - vs.length) % C = 0 :=
          Nat.sub_mod_eq_zero_of_mod_eq he
        have h2 := Nat.mod_eq_of_lt (show vs.length + 1 + j + 1 - vs.length < C by omega)
        omega
      rw [pop_nat C hC st hst _ _ hf1 hl1 _ hx hne, ← succ_mod_nat C _ hC]
      have hlt2 : (vs.length + 1 + j + 1) % C < C := Nat.mod_lt _ (by omega)
      obtain ⟨s2, e2⟩ := ih (j + 1) ⟨C, st, (((vs.length + 1 + (j + 1)) % C : Nat) : Int),
        ((vs.length % C : Nat) : Int)⟩ (by omega)
        ⟨rfl, by simpa using hst, Int.ofNat_nonneg _, by
          show (((vs.length + 1 + j + 1) % C : Nat) : Int) < C
          omega, Int.ofNat_nonneg _, by
          show ((vs.length % C : Nat) : Int) < C
          omega⟩ (fun _ => rfl)
      refine ⟨s2, ?_⟩
      have e3 : run (⟨C, st, (((vs.length + 1 + j + 1) % C : Nat) : Int),
          ((vs.length % C : Nat) : Int)⟩ : CircleBuffer α) (List.replicate k Op.pop) =
          some (vs.drop (vs.length + 1 - C + (j + 1)), s2) := e2
      simp only [e3]
      rfl

/-- Claim C20 (fixed buffer retains exactly the most recent `C - 1` values). For every
capacity `C >= 2`, every content of the freshly allocated storage and all values `vs` with
`m = vs.length >= C - 1`: the calls `push(v)` for `v` in `vs` on a freshly constructed
`CircleBuffer(C)` return normally and leave `last_ = m mod C` and `first_ = (m + 1) mod C`,
which is `0` when `m = C - 1`; `C - 1` successive calls of `pop` then return the last
`C - 1` values of `vs`, oldest first. -/
theorem retains_most_recent (C : Nat) (mem : Nat → α) (vs : List α) (hC : 2 ≤ C)
    (hm : C - 1 ≤ vs.length) :
    ∃ s, runFresh C mem (vs.map Op.push) = some ([], s) ∧
      s.last_ = ((vs.length % C : Nat) : Int) ∧
      s.first_ = (((vs.length + 1) % C : Nat) : Int) ∧
      (vs.length = C - 1 → s.first_ = 0) ∧
      ∃ s1, run s (List.replicate (C - 1) Op.pop) =
        some (vs.drop (vs.length + 1 - C), s1) := by
  have hfresh : construct (C : Int).toNat (C : Int) mem =
      .ok ⟨C, (List.range C).map mem, 0, 0⟩ := by
    simp only [construct]
    rw [if_neg (by omega), if_neg (lt_irrefl _)]
    simp
  obtain ⟨st, hst, hcont, hrun⟩ := pushes_state C hC ((List.range C).map mem) (by simp) vs
  have hfm : (if vs.length < C then 0 else (vs.length + 1) % C) = (vs.length + 1) % C := by
    split_ifs with h
    · rw [show vs.length + 1 = C by omega, Nat.mod_self]
    · rfl
  have hl1 : vs.length % C < C := Nat.mod_lt _ (by omega)
  have hf1 : (vs.length + 1) % C < C := Nat.mod_lt _ (by omega)
  have hr := hrun []
  rw [List.append_nil, hfm] at hr
  refine ⟨⟨C, st, (((vs.length + 1) % C : Nat) : Int), ((vs.length % C : Nat) : Int)⟩, ?_,
    rfl, rfl, ?_, ?_⟩
  · simp only [runFresh, hfresh, hr]
    rfl
  · intro h
    show (((vs.length + 1) % C : Nat) : Int) = 0
    rw [show vs.length + 1 = C by omega, Nat.mod_self]
    rfl
  · have := pops_values C hC st hst vs hm hcont (C - 1) 0 _ (by omega)
      ⟨rfl, by simpa using hst, Int.ofNat_nonneg _, by
        show (((vs.length + 1) % C : Nat) : Int) < C
        omega, Int.ofNat_nonneg _, by
        show ((vs.length % C : Nat) : Int) < C
        omega⟩ (fun _ => rfl)
    exact this

/-- Witness for `retains_most_recent`: capacity 3 and the values `1, 2, 3, 4`. -/
theorem retains_most_recent_witness :
    2 ≤ 3 ∧ 3 - 1 ≤ ([1, 2, 3, 4] : List Int).length ∧
    ∃ s, runFresh ((3 : Nat) : Int) (fun _ => (0 : Int))
        (([1, 2, 3, 4] : List Int).map Op.push) = some ([], s) ∧
      s.last_ = ((([1, 2, 3, 4] : List Int).length % 3 : Nat) : Int) ∧
      s.first_ = (((([1, 2, 3, 4] : List Int).length + 1) % 3 : Nat) : Int) ∧
      (([1, 2, 3, 4] : List Int).length = 3 - 1 → s.first_ = 0) ∧
      ∃ s1, run s (List.replicate (3 - 1) Op.pop) =
        some (([1, 2, 3, 4] : List Int).drop (([1, 2, 3, 4] : List Int).length + 1 - 3), s1) :=
  ⟨by decide, by decide, retains_most_recent 3 (fun _ => 0) [1, 2, 3, 4] (by decide)
    (by decide)⟩

end CircleBuffer

/-! ### `CircleBufferDynamic` -/

namespace CircleBufferDynamic

variable {α : Type}

theorem mod_step (L f : Nat) (hf : f < L) (h2 : 2 ≤ L) :
    ((f + (L - 1)) % L + 1) % L = f := by
  by_cases h0 : f = 0
  · subst h0
    rw [Nat.zero_add, Nat.mod_eq_of_lt (show L - 1 < L by omega), show L - 1 + 1 = L by omega,
      Nat.mod_self]
  · rw [show f + (L - 1) = (f - 1) + L by omega, Nat.add_mod_right,
      Nat.mod_eq_of_lt (show f - 1 < L by omega), show f - 1 + 1 = f by omega,
      Nat.mod_eq_of_lt hf]

theorem mod_step2 (L f : Nat) (h2 : 2 ≤ L) :
    ((f + 1) % L + (L - 1)) % L = f % L := by
  rw [Nat.add_mod, Nat.mod_mod, ← Nat.add_mod, show f + 1 + (L - 1) = f + L by omega,
    Nat.add_mod_right]

theorem push_full (s : CircleBufferDynamic α) (L f : Nat) (v : α) (hr : IsRing s L f)
    (hcap : s.capacity_ = L) :
    ∃ s1, push s v = .ok s1 ∧ IsRing s1 L ((f + 1) % L) ∧ keys s1 = (keys s).set f v ∧
      s1.capacity_ = s.capacity_ := by
  obtain ⟨len, nxt, first, last, size, flt, two⟩ := hr
  have hl : (f + (L - 1)) % L < s.heap.length := by rw [len]; exact Nat.mod_lt _ (by omega)
  have hfl : f < s.heap.length := by omega
  have hnl : (s.heap[(f + (L - 1)) % L]).next = some f := by
    rw [nxt _ hl, mod_step L f flt two]
  refine ⟨{ s with heap := s.heap.set f { s.heap[f] with key := v },
                   last_ := some f, first_ := some ((f + 1) % L) }, ?_, ?_, ?_, rfl⟩
  · simp only [push, first, safe_push, load, last, List.getElem?_eq_getElem hl,
      List.getElem?_eq_getElem hfl, hnl, size, hcap, lt_irrefl, and_false, if_false, if_true,
      bind, Except.bind, pure, Except.pure, reduceCtorEq, List.getElem?_set_self hfl,
      List.set_set, nxt f hfl]
    rw [if_neg (by omega)]
  · refine ⟨by simpa using len, ?_, rfl, ?_, size, Nat.mod_lt _ (by omega), two⟩
    · intro i h
      have hi : i < s.heap.length := by simpa using h
      simp only [List.getElem_set]
      split
      · next hfi => subst hfi; exact nxt _ hfl
      · exact nxt i hi
    · simp only [mod_step2 L f two, Nat.mod_eq_of_lt flt]
  · simp only [keys, List.map_set]

theorem set_same {β : Type} (l : List β) (i : Nat) (h : i < l.length) (x : β)
    (hx : x = l[i]) : l.set i x = l := by
  subst hx
  apply List.ext_getElem (by simp)
  intro j h1 h2
  rw [List.getElem_set]
  split
  · next h3 => subst h3; rfl
  · rfl

theorem safe_push_walk (s : CircleBufferDynamic α) (L : Nat) (v : α) (hr : IsRing s L 0)
    (hcap : (L : Int) < s.capacity_) :
    ∀ d i fuel, i + d + 1 = L → d < fuel →
      ∃ t, safe_push fuel (some i) v s = .ok t ∧ Grown s v t := by
  obtain ⟨len, nxt, first, last, size, flt, two⟩ := hr
  have hne : s.size_ ≠ s.capacity_ := by omega
  have hlt : s.size_ < s.capacity_ := by omega
  intro d
  induction d with
  | zero =>
    intro i fuel hi hfuel
    obtain ⟨fuel, rfl⟩ : ∃ k, fuel = k + 1 := ⟨fuel - 1, by omega⟩
    have hil : i < s.heap.length := by omega
    have hin : (s.heap[i]).next = some 0 := by
      rw [nxt i hil, show i + 1 = L by omega, Nat.mod_self]
    have hne2 : i ≠ s.heap.length := by omega
    have hget : ((s.heap ++ [(⟨v, none⟩ : node α)]).set i
        ⟨(s.heap[i]).key, some s.heap.length⟩)[s.heap.length]? = some ⟨v, none⟩ := by
      rw [List.getElem?_set_ne hne2]; simp
    refine ⟨⟨((s.heap ++ [(⟨v, none⟩ : node α)]).set i
        ⟨(s.heap[i]).key, some s.heap.length⟩).set s.heap.length ⟨v, some 0⟩,
        s.first_, some s.heap.length, s.capacity_, s.size_⟩, ?_, ?_⟩
    · simp only [safe_push, load, List.getElem?_eq_getElem hil, hin, first, hlt, true_or,
        and_self, if_true, bind, Except.bind, pure, Except.pure, hget]
    · refine ⟨by simp, ?_, ?_, rfl, rfl, rfl, rfl⟩
      · intro j hj
        simp only [List.length_set, List.length_append, List.length_singleton] at hj
        simp only [List.getElem_set]
        split
        · next h1 => simp only [← h1, Nat.mod_self]
        · next h1 =>
          split
          · next h2 => rw [← h2, show i + 1 = s.heap.length by omega, Nat.mod_eq_of_lt (by omega)]
          · next h2 =>
            have hj2 : j < s.heap.length := by omega
            rw [List.getElem_append_left hj2, nxt j hj2, Nat.mod_eq_of_lt (by omega),
              Nat.mod_eq_of_lt (by omega)]
      · simp only [keys, List.map_set, List.map_append, List.map_cons, List.map_nil]
        rw [set_same ((List.map node.key s.heap ++ [v]).set i (s.heap[i]).key) s.heap.length
          (by simp) v (by rw [List.getElem_set_ne hne2]; simp)]
        exact set_same _ i (by simp; omega) _ (by
          rw [List.getElem_append_left (by simpa using hil)]; simp)
  | succ d ih =>
    intro i fuel hi hfuel
    obtain ⟨fuel, rfl⟩ : ∃ k, fuel = k + 1 := ⟨fuel - 1, by omega⟩
    have hil : i < s.heap.length := by omega
    have hin : (s.heap[i]).next = some (i + 1) := by
      rw [nxt i hil, Nat.mod_eq_of_lt (by omega)]
    obtain ⟨t, hrec, ht⟩ := ih (i + 1) fuel (by omega) (by omega)
    have htl : s.heap.length < t.heap.length := by rw [ht.len]; omega
    have hself : t.heap.set s.heap.length
        { t.heap[s.heap.length] with next := t.first_ } = t.heap := by
      have : ({ t.heap[s.heap.length] with next := t.first_ } : node α) = t.heap[s.heap.length] := by
        have h1 := ht.nxt _ htl
        rw [Nat.mod_self] at h1
        rw [ht.first, first, ← h1]
      exact set_same _ _ htl _ this
    refine ⟨t, ?_, ht⟩
    simp only [safe_push, load, List.getElem?_eq_getElem hil, hin, first, hne, if_false,
      bind, Except.bind, pure, Except.pure, hrec, reduceCtorEq, Option.some.injEq,
      Nat.add_one_ne_zero, or_self, false_and, ht.last, List.getElem?_eq_getElem htl]
    simp only at hself
    rw [hself, ← ht.last]

theorem push_grow (s : CircleBufferDynamic α) (L : Nat) (v : α) (hr : IsRing s L 0)
    (hcap : (L : Int) < s.capacity_) :
    ∃ t, push s v = .ok t ∧ IsRing t (L + 1) 0 ∧ keys t = keys s ++ [v] ∧
      t.capacity_ = s.capacity_ := by
  obtain ⟨t, ht, hg⟩ := safe_push_walk s L v hr hcap (L - 1) 0 (s.heap.length + 1)
    (by have := hr.two; omega) (by have := hr.len; omega)
  refine ⟨{ t with size_ := if t.size_ + 1 < t.capacity_ then t.size_ + 1 else t.capacity_ },
    ?_, ?_, hg.keys, hg.cap⟩
  · simp only [push, hr.first, reduceCtorEq, if_false, ht, bind, Except.bind, pure, Except.pure]
  · have hlen := hr.len
    refine ⟨by rw [← hlen]; exact hg.len, ?_, by rw [← hr.first]; exact hg.first, ?_, ?_,
      by omega, by have := hr.two; omega⟩
    · intro i h
      rw [← hlen]; exact hg.nxt i h
    · show t.last_ = _
      rw [hg.last, hlen, Nat.zero_add, show L + 1 - 1 = L by omega,
        Nat.mod_eq_of_lt (by omega)]
    · show (if t.size_ + 1 < t.capacity_ then t.size_ + 1 else t.capacity_) = _
      rw [hg.size, hg.cap, hr.size]
      split
      · push_cast; rfl
      · push_cast; omega

theorem rotate_set_succ {β : Type} (l : List β) (f : Nat) (v : β) (hf : f < l.length) :
    (l.set f v).rotate ((f + 1) % l.length) = (l.rotate f).tail ++ [v] := by
  have h1 : (l.set f v).rotate ((f + 1) % l.length) = (l.set f v).rotate (f + 1) := by
    have := List.rotate_mod (l.set f v) (f + 1)
    rwa [List.length_set] at this
  rw [h1, List.rotate_eq_drop_append_take (by simp; omega),
    List.rotate_eq_drop_append_take (by omega)]
  have h2 : List.drop (f + 1) (l.set f v) = List.drop (f + 1) l := by
    apply List.ext_getElem (by simp)
    intro j hj1 hj2
    simp only [List.getElem_drop]
    rw [List.getElem_set_ne (by omega)]
  have h3 : List.take (f + 1) (l.set f v) = List.take f l ++ [v] := by
    apply List.ext_getElem (by simp; omega)
    intro j hj1 hj2
    simp only [List.length_take, List.length_set] at hj1
    simp only [List.getElem_take]
    by_cases hjf : j = f
    · subst hjf
      rw [List.getElem_set_self, List.getElem_append_right (by simp)]
      simp
    · rw [List.getElem_set_ne (by omega), List.getElem_append_left (by simp; omega)]
      simp
  have h4 : (List.drop f l ++ List.take f l).tail = List.drop (f + 1) l ++ List.take f l := by
    rw [List.tail_append_of_ne_nil (by
      intro h; have := congrArg List.length h; simp at this; omega)]
    simp
  rw [h2, h3, h4, List.append_assoc]

theorem pushInv_step (C : Nat) (pre : List α) (s : CircleBufferDynamic α) (v : α)
    (h : PushInv C pre s) : ∃ t, push s v = .ok t ∧ PushInv C (pre ++ [v]) t := by
  obtain ⟨L, f, hr, hL, hf, hk, hc⟩ := h
  have hklen : (keys s).length = L := by simp [keys, hr.len]
  by_cases hlt : L < C
  · have hf0 := hf hlt
    subst hf0
    obtain ⟨t, ht, hrt, hkt, hct⟩ := push_grow s L v hr (by rw [hc]; exact_mod_cast hlt)
    have hpl : pre.length = L := by omega
    refine ⟨t, ht, L + 1, 0, hrt, by simp; omega, fun _ => rfl, ?_, hct.trans hc⟩
    rw [List.rotate_zero] at hk ⊢
    rw [hkt, hk, hpl]
    simp [hpl]
  · have hLC : L = C := by omega
    obtain ⟨t, ht, hrt, hkt, hct⟩ := push_full s L f v hr (by rw [hc, hLC])
    refine ⟨t, ht, L, (f + 1) % L, hrt, by simp; omega, fun h => absurd h hlt, ?_, hct.trans hc⟩
    have := rotate_set_succ (keys s) f v (by rw [hklen]; exact hr.flt)
    rw [hklen] at this
    rw [hkt, this, hk]
    have hle : L ≤ pre.length := by omega
    have h2 := hr.two
    have hle2 : pre.length - L + 1 ≤ pre.length := by omega
    rw [List.length_append, List.length_singleton, List.tail_drop,
      show pre.length + 1 - L = pre.length - L + 1 by omega,
      List.drop_append_of_le_length hle2]

theorem run_pushes (C : Nat) (vs : List α) :
    ∀ (pre : List α) (s : CircleBufferDynamic α), PushInv C pre s →
      ∃ t, run s (vs.map Op.push) = .ok ([], t) ∧ PushInv C (pre ++ vs) t := by
  induction vs with
  | nil => intro pre s h; exact ⟨s, rfl, by simpa using h⟩
  | cons v vs ih =>
    intro pre s h
    obtain ⟨t, ht, hi⟩ := pushInv_step C pre s v h
    obtain ⟨u, hu, hj⟩ := ih (pre ++ [v]) t hi
    refine ⟨u, ?_, by simpa using hj⟩
    simp only [List.map_cons, run, ht, bind, Except.bind, hu]

theorem fresh_two (C : Nat) (hC : 2 ≤ C) (v1 v2 : α) :
    ∃ t, run ⟨[], none, none, (C : Int), 0⟩ [Op.push v1, Op.push v2] = .ok ([], t) ∧
      PushInv C [v1, v2] t := by
  have h1 : (0 : Int) + 1 < (C : Int) := by omega
  refine ⟨⟨[⟨v1, some 1⟩, ⟨v2, some 0⟩], some 0, some 1, (C : Int),
    if (1 : Int) + 1 < C then 1 + 1 else C⟩, ?_, 2, 0, ?_, by simp; omega, fun _ => rfl,
    by simp [keys], rfl⟩
  · have hC1 : 1 < C := by omega
    have hC2 : ¬ (C : Int) < C := lt_irrefl _
    simp only [run, push, safe_push, load, bind, Except.bind, pure, Except.pure, h1, if_true,
      List.nil_append, List.length_nil, List.length_cons, List.getElem?_cons_zero, true_and,
      or_true, reduceCtorEq, if_false, List.set_cons_zero, List.cons_append, zero_add,
      List.getElem?_cons_succ, List.set_cons_succ]
    have hC3 : (1 : Int) < (C : Int) := by omega
    simp only [hC3, if_true]
  · refine ⟨rfl, ?_, rfl, rfl, ?_, by omega, le_refl _⟩
    · intro i h
      simp only [List.length_cons, List.length_nil] at h
      interval_cases i <;> rfl
    · show (if (1 : Int) + 1 < C then 1 + 1 else (C : Int)) = _
      split
      all_goals first
        | rfl
        | omega

theorem pop_ring (s : CircleBufferDynamic α) (L f : Nat) (hlen : s.heap.length = L)
    (hnxt : ∀ i (h : i < s.heap.length), (s.heap[i]).next = some ((i + 1) % L))
    (hfirst : s.first_ = some f) (hf : f < L) :
    ∃ x, (keys s)[f]? = some x ∧
      pop s = .ok (x, ⟨s.heap, if s.size_ - 1 = 0 then none else some ((f + 1) % L),
        s.last_, s.capacity_, s.size_ - 1⟩) := by
  have hfl : f < s.heap.length := by omega
  refine ⟨(s.heap[f]).key, by simp [keys, List.getElem?_eq_getElem hfl], ?_⟩
  simp only [pop, hfirst, reduceCtorEq, if_false, load, List.getElem?_eq_getElem hfl, bind,
    Except.bind, pure, Except.pure, hnxt f hfl]
  split
  all_goals rfl

theorem run_cons_pop (s s1 t : CircleBufferDynamic α) (rest : List (Op α)) (x : α)
    (out : List α) (h : pop s = .ok (x, s1)) (h2 : run s1 rest = .ok (out, t)) :
    run s (Op.pop :: rest) = .ok (x :: out, t) := by
  simp only [run, h, h2, bind, Except.bind, pure, Except.pure]

theorem run_cons_push (s s1 : CircleBufferDynamic α) (rest : List (Op α)) (v : α)
    (h : push s v = .ok s1) : run s (Op.push v :: rest) = run s1 rest := by
  simp only [run, h, bind, Except.bind]

theorem run_pops (L : Nat) :
    ∀ (n f : Nat) (s : CircleBufferDynamic α), s.heap.length = L →
      (∀ i (h : i < s.heap.length), (s.heap[i]).next = some ((i + 1) % L)) →
      s.first_ = some f → f < L → s.size_ = (n : Int) + 1 → n + 1 ≤ L →
      ∃ t, run s (List.replicate (n + 1) Op.pop) = .ok (((keys s).rotate f).take (n + 1), t) ∧
        t.size_ = 0 ∧ t.first_ = none := by
  intro n
  induction n with
  | zero =>
    intro f s hlen hnxt hfirst hf hsize hn
    obtain ⟨x, hx, hp⟩ := pop_ring s L f hlen hnxt hfirst hf
    have hkl : f < (keys s).length := by simp [keys]; omega
    have hz : s.size_ - 1 = 0 := by omega
    rw [if_pos hz] at hp
    refine ⟨⟨s.heap, none, s.last_, s.capacity_, s.size_ - 1⟩, ?_, hz, rfl⟩
    simp only [List.replicate, run, hp, bind, Except.bind, pure, Except.pure]
    rw [List.take_one, List.head?_rotate hkl, hx]
    rfl
  | succ n ih =>
    intro f s hlen hnxt hfirst hf hsize hn
    obtain ⟨x, hx, hp⟩ := pop_ring s L f hlen hnxt hfirst hf
    have hkl : f < (keys s).length := by simp [keys]; omega
    have hz : ¬ s.size_ - 1 = 0 := by omega
    rw [if_neg hz] at hp
    obtain ⟨t, ht, ht1, ht2⟩ := ih ((f + 1) % L)
      ⟨s.heap, some ((f + 1) % L), s.last_, s.capacity_, s.size_ - 1⟩ hlen hnxt rfl
      (Nat.mod_lt _ (by omega)) (by show s.size_ - 1 = _; push_cast at hsize ⊢; omega) (by omega)
    refine ⟨t, ?_, ht1, ht2⟩
    have hk2 : keys (⟨s.heap, some ((f + 1) % L), s.last_, s.capacity_, s.size_ - 1⟩ :
        CircleBufferDynamic α) = keys s := rfl
    rw [hk2] at ht
    rw [List.replicate_succ, run_cons_pop s _ t _ x _ hp ht]
    have hkL : (keys s).length = L := by simp [keys, hlen]
    have e1 : (keys s).rotate ((f + 1) % L) = ((keys s).rotate f).rotate 1 := by
      rw [List.rotate_rotate, ← hkL, List.rotate_mod]
    have e2 : ∃ tl, (keys s).rotate f = x :: tl := by
      have h1 := List.head?_rotate hkl
      rw [hx] at h1
      cases hrot : (keys s).rotate f with
      | nil => rw [hrot] at h1; simp at h1
      | cons a tl => rw [hrot] at h1; simp at h1; exact ⟨tl, by rw [h1]⟩
    obtain ⟨tl, e2⟩ := e2
    have e3 : tl.length + 1 = L := by
      have := congrArg List.length e2
      simp only [List.length_rotate, List.length_cons] at this
      omega
    rw [e1, e2, List.rotate_cons_succ, List.rotate_zero, List.take_succ_cons,
      List.take_append_of_le_length (by omega)]

theorem run_pushes_append (vs : List α) (rest : List (Op α)) :
    ∀ (s t : CircleBufferDynamic α), run s (vs.map Op.push) = .ok ([], t) →
      run s (vs.map Op.push ++ rest) = run t rest := by
  induction vs with
  | nil =>
    intro s t h
    simp only [List.map_nil, run, Except.ok.injEq, Prod.mk.injEq, true_and] at h
    simp [h]
  | cons v vs ih =>
    intro s t h
    cases hp : push s v with
    | error e => simp [run, hp, bind, Except.bind] at h
    | ok s1 =>
      rw [List.map_cons, run_cons_push s s1 _ v hp] at h
      rw [List.map_cons, List.cons_append, run_cons_push s s1 _ v hp]
      exact ih s1 t h

theorem runFresh_eq (C : Nat) (ops : List (Op α)) :
    runFresh (C : Int) ops = run ⟨[], none, none, (C : Int), 0⟩ ops := by
  have h : ¬ ((C : Int) < 0) := by omega
  simp only [runFresh, construct, h, if_false, bind, Except.bind]

theorem pushes_inv (C : Nat) (hC : 2 ≤ C) (v1 v2 : α) (rest : List α) :
    ∃ t, runFresh (C : Int) ((v1 :: v2 :: rest).map Op.push) = .ok ([], t) ∧
      PushInv C (v1 :: v2 :: rest) t := by
  obtain ⟨t, ht, hi⟩ := fresh_two C hC v1 v2
  obtain ⟨u, hu, hj⟩ := run_pushes C rest [v1, v2] t hi
  refine ⟨u, ?_, by simpa using hj⟩
  rw [runFresh_eq]
  have := run_pushes_append [v1, v2] (rest.map Op.push) _ t ht
  simp only [List.map_cons, List.map_nil, List.cons_append, List.nil_append] at this
  rw [List.map_cons, List.map_cons, this, hu]

theorem pops_of_inv (C : Nat) (pre : List α) (s : CircleBufferDynamic α)
    (h : PushInv C pre s) :
    ∃ t, run s (List.replicate (min pre.length C) Op.pop) =
      .ok (pre.drop (pre.length - min pre.length C), t) ∧ t.size_ = 0 ∧ t.first_ = none := by
  obtain ⟨L, f, hr, hL, hf, hk, hc⟩ := h
  obtain ⟨n, hn⟩ : ∃ n, L = n + 1 := ⟨L - 1, by have := hr.two; omega⟩
  obtain ⟨t, ht, ht1, ht2⟩ := run_pops L n f s hr.len hr.nxt hr.first hr.flt
    (by rw [hr.size, hn]; push_cast; rfl) (by omega)
  refine ⟨t, ?_, ht1, ht2⟩
  rw [← hL, hn, ht, ← hn, hk]
  congr 1
  rw [List.take_of_length_le]
  simp
  omega

/-- Claim C2 (linked buffer FIFO order). For every capacity `C >= 0` and all values
`v1..vn` with `n <= C`: on a buffer built by `CircleBufferDynamic(C)`, the calls `push(v1)`,
..., `push(vn)` followed by `n` calls of `pop()` all return normally and the `pop` calls
return exactly `v1, ..., vn` in that order. -/
theorem fifo_order (C : Int) (vs : List α) (hC : 0 ≤ C) (hn : (vs.length : Int) ≤ C) :
    ∃ t, runFresh C (vs.map Op.push ++ List.replicate vs.length Op.pop) = .ok (vs, t) := by
  obtain ⟨c, rfl⟩ : ∃ c : Nat, C = (c : Int) := ⟨C.toNat, by omega⟩
  match vs, hn with
  | [], _ => exact ⟨_, by rw [runFresh_eq]; rfl⟩
  | [v], hn =>
    refine ⟨⟨[⟨v, none⟩], none, none, (c : Int),
      (if (0 : Int) + 1 < (c : Int) then 0 + 1 else (c : Int)) - 1⟩, ?_⟩
    rw [runFresh_eq]
    simp only [List.map_cons, List.map_nil, List.length_singleton, List.replicate,
      List.cons_append, List.nil_append, run, push, pop, load, bind, Except.bind, pure,
      Except.pure, if_true, List.length_nil, List.getElem?_cons_zero, reduceCtorEq, if_false,
      ite_self]
  | v1 :: v2 :: rest, hn =>
    simp only [List.length_cons] at hn
    obtain ⟨t, ht, hi⟩ := pushes_inv c (by omega) v1 v2 rest
    obtain ⟨u, hu, -, -⟩ := pops_of_inv c _ t hi
    have hmin : min (v1 :: v2 :: rest).length c = (v1 :: v2 :: rest).length := by
      simp only [List.length_cons]; omega
    rw [hmin, Nat.sub_self, List.drop_zero] at hu
    refine ⟨u, ?_⟩
    rw [runFresh_eq] at ht ⊢
    rw [run_pushes_append _ _ _ t ht, hu]

/-- Witness for `fifo_order`: capacity 3 and the values `1, 2, 3`. -/
theorem fifo_order_witness :
    (0 : Int) ≤ 3 ∧ ((([1, 2, 3] : List Int).length : Nat) : Int) ≤ 3 ∧
    ∃ t, runFresh (3 : Int) (([1, 2, 3] : List Int).map Op.push ++
      List.replicate ([1, 2, 3] : List Int).length Op.pop) = .ok ([1, 2, 3], t) :=
  ⟨by decide, by decide, fifo_order 3 [1, 2, 3] (by decide) (by decide)⟩

/-- Claim C7 (linked buffer capacity bound and overwrite-oldest eviction). For every
capacity `C >= 2` and all values `v1..vm` with `m >= C`: after `push(v1)`, ..., `push(vm)` on a
buffer built by `CircleBufferDynamic(C)` the field `size_` equals `C`, and `C` successive calls
of `pop()` return `v_{m-C+1}, ..., v_m` in that order. -/
theorem overwrite_oldest (C : Nat) (vs : List α) (hC : 2 ≤ C) (hm : C ≤ vs.length) :
    ∃ s, runFresh (C : Int) (vs.map Op.push) = .ok ([], s) ∧ s.size_ = (C : Int) ∧
      ∃ t, run s (List.replicate C Op.pop) = .ok (vs.drop (vs.length - C), t) := by
  match vs, hm with
  | [], hm => simp at hm; omega
  | [v], hm => simp at hm; omega
  | v1 :: v2 :: rest, hm =>
    obtain ⟨t, ht, hi⟩ := pushes_inv C hC v1 v2 rest
    obtain ⟨u, hu, -, -⟩ := pops_of_inv C _ t hi
    have hmin : min (v1 :: v2 :: rest).length C = C := by omega
    rw [hmin] at hu
    refine ⟨t, ht, ?_, u, hu⟩
    obtain ⟨L, f, hr, hL, -, -, -⟩ := hi
    rw [hr.size, hL, hmin]

/-- Witness for `overwrite_oldest`: capacity 2 and the values `1, 2, 3`. -/
theorem overwrite_oldest_witness :
    2 ≤ 2 ∧ 2 ≤ ([1, 2, 3] : List Int).length ∧
    ∃ s, runFresh ((2 : Nat) : Int) (([1, 2, 3] : List Int).map Op.push) = .ok ([], s) ∧
      s.size_ = ((2 : Nat) : Int) ∧
      ∃ t, run s (List.replicate 2 Op.pop) =
        .ok (([1, 2, 3] : List Int).drop (([1, 2, 3] : List Int).length - 2), t) :=
  ⟨by decide, by decide, overwrite_oldest 2 [1, 2, 3] (by decide) (by decide)⟩

theorem visit_ring (heap : List (node α)) (L : Nat) (hlen : heap.length = L)
    (hnxt : ∀ i (h : i < heap.length), (heap[i]).next = some ((i + 1) % L)) :
    ∀ n a, a < L → visit heap n (some a) =
      some ((List.range n).map (fun i => (a + i) % L), some ((a + n) % L)) := by
  intro n
  induction n with
  | zero => intro a ha; simp [visit, Nat.mod_eq_of_lt ha]
  | succ n ih =>
    intro a ha
    have hal : a < heap.length := by omega
    have hL : 0 < L := by omega
    rw [visit]
    simp only [List.getElem?_eq_getElem hal, hnxt a hal, ih _ (Nat.mod_lt _ hL)]
    rw [List.range_succ_eq_map]
    simp only [List.map_cons, List.map_map, Nat.add_zero, Nat.mod_eq_of_lt ha,
      Option.some.injEq, Prod.mk.injEq, List.cons.injEq, true_and]
    constructor
    · apply List.map_congr_left
      intro i _
      simp only [Function.comp, Nat.mod_add_mod]
      congr 1; omega
    · rw [Nat.mod_add_mod]; congr 1; omega

theorem ring_liveCycle (s : CircleBufferDynamic α) (L f : Nat) (hr : IsRing s L f) :
    liveCycle s := by
  have hv := visit_ring s.heap L hr.len hr.nxt L f hr.flt
  unfold liveCycle
  rw [hr.size, Int.toNat_ofNat, hr.first, hv]
  refine ⟨by simp, ?_, ?_⟩
  · rw [Nat.add_mod_right, Nat.mod_eq_of_lt hr.flt]
  · apply List.Nodup.map_on _ (List.nodup_range L)
    intro i hi j hj hij
    rw [List.mem_range] at hi hj
    have h1 : (f + i) % L = (f + j) % L := hij
    have h2 : i % L = j % L := Nat.ModEq.add_left_cancel' f h1
    rwa [Nat.mod_eq_of_lt hi, Nat.mod_eq_of_lt hj] at h2

/-- Claim C9 as amended (linked buffer cycle invariant). For every capacity `C >= 2` and
all values `v1..vk` with `k >= 2`: in the state reached from `CircleBufferDynamic(C)` by the
calls `push(v1)`, ..., `push(vk)` (and no `pop`), `size_ = min(k, C)` and following
next-references from `first_` visits exactly `size_` distinct nodes and then arrives back at
`first_`. -/
theorem cycle_after_pushes (C : Nat) (vs : List α) (hC : 2 ≤ C) (hk : 2 ≤ vs.length) :
    ∃ s, runFresh (C : Int) (vs.map Op.push) = .ok ([], s) ∧
      s.size_ = (min vs.length C : Nat) ∧ liveCycle s := by
  match vs, hk with
  | [], hk => simp at hk
  | [v], hk => simp at hk
  | v1 :: v2 :: rest, _ =>
    obtain ⟨t, ht, L, f, hr, hL, -, -, -⟩ := pushes_inv C hC v1 v2 rest
    exact ⟨t, ht, by rw [hr.size, hL], ring_liveCycle t L f hr⟩

/-- Witness for `cycle_after_pushes`: capacity 2 and the values `1, 2, 3`. -/
theorem cycle_after_pushes_witness :
    2 ≤ 2 ∧ 2 ≤ ([1, 2, 3] : List Int).length ∧
    ∃ s, runFresh ((2 : Nat) : Int) (([1, 2, 3] : List Int).map Op.push) = .ok ([], s) ∧
      s.size_ = ((min ([1, 2, 3] : List Int).length 2 : Nat) : Int) ∧ liveCycle s :=
  ⟨by decide, by decide, cycle_after_pushes 2 [1, 2, 3] (by decide) (by decide)⟩

/-- Claim C9 as stated fails on the code. After `CircleBufferDynamic(1)` and `push(7)` the
buffer has `size_ = 1` and the only node has a null next-reference, so the walk from `first_`
does not come back to `first_`. After `CircleBufferDynamic(2)`, `push(7)`, `push(8)`, `pop()`
the buffer has `size_ = 1` but `pop` has unlinked nothing: one step from `first_` arrives at
the node that was popped, not at `first_`. -/
theorem cycle_counterexample :
    (∃ s, runFresh (1 : Int) [Op.push (7 : Int)] = .ok ([], s) ∧ 1 ≤ s.size_ ∧ ¬ liveCycle s) ∧
    (∃ s, runFresh (2 : Int) [Op.push (7 : Int), Op.push 8, Op.pop] = .ok ([7], s) ∧
      1 ≤ s.size_ ∧ ¬ liveCycle s) := by
  refine ⟨⟨⟨[⟨7, none⟩], some 0, none, 1, 1⟩, rfl, by decide, by decide⟩,
    ⟨⟨[⟨7, some 1⟩, ⟨8, some 0⟩], some 1, some 1, 2, 1⟩, rfl, by decide, by decide⟩⟩

/-- Claim C6 (linked buffer under interleaved use) fails on the code: on
`CircleBufferDynamic(2)` the calls `push(1)`, `push(2)`, `pop()`, `push(3)`, `pop()`, `pop()`
never hold more than two values and never pop an empty buffer, yet the three `pop` calls
return `1, 2, 1`: the node popped first stays linked in front of the node that `push(3)`
appends, and its stale key `1` is returned where `3` is due. -/
theorem interleaved_returns_stale :
    ∃ s, runFresh (2 : Int) [Op.push (1 : Int), Op.push 2, Op.pop, Op.push 3, Op.pop, Op.pop]
      = .ok ([1, 2, 1], s) :=
  ⟨_, rfl⟩

/-- Claim C10 (linked buffer size invariant) fails on the code for capacity 0: on
`CircleBufferDynamic(0)`, `push(5)` allocates a node and leaves `size_ = 0`, and the following
`pop()` does not throw, returns `5` and leaves `size_ = -1`. -/
theorem size_negative_at_capacity_zero :
    ∃ s, runFresh (0 : Int) [Op.push (5 : Int), Op.pop] = .ok ([5], s) ∧ s.size_ = -1 :=
  ⟨_, rfl, rfl⟩

theorem safe_push_size : ∀ (fuel : Nat) (p : Option Nat) (v : α) (s t : CircleBufferDynamic α),
    safe_push fuel p v s = .ok t → t.size_ = s.size_ ∧ t.capacity_ = s.capacity_ := by
  intro fuel
  induction fuel with
  | zero => intro p v s t h; simp [safe_push] at h
  | succ fuel ih =>
    intro p v s t h
    rw [safe_push] at h
    simp only [bind, Except.bind, pure, Except.pure] at h
    split at h
    · exact absurd h (by simp)
    · split at h
      · split at h
        · exact absurd h (by simp)
        · injection h with h; subst h; exact ⟨rfl, rfl⟩
      · split at h
        · split at h
          · exact absurd h (by simp)
          · split at h
            · exact absurd h (by simp)
            · split at h
              · exact absurd h (by simp)
              · split at h
                · exact absurd h (by simp)
                · injection h with h; subst h; exact ⟨rfl, rfl⟩
        · split at h
          · exact absurd h (by simp)
          · rename_i u hu
            have := ih _ _ _ _ hu
            split at h
            · exact absurd h (by simp)
            · injection h with h; subst h; exact this

theorem push_sizeOk (C : Int) (hC : 1 ≤ C) (s t : CircleBufferDynamic α) (v : α)
    (hs : SizeOk C s) (h : push s v = .ok t) : SizeOk C t := by
  obtain ⟨h1, h2, h3, -⟩ := hs
  have key : ∀ s1 : CircleBufferDynamic α, s1.size_ = s.size_ → s1.capacity_ = s.capacity_ →
      SizeOk C { s1 with size_ := if s1.size_ + 1 < s1.capacity_ then s1.size_ + 1
                                  else s1.capacity_ } := by
    intro s1 e1 e2
    refine ⟨e2.trans h1, ?_, ?_, fun _ => ?_⟩
    all_goals (show _ ≤ _; simp only [e1, e2, h1]; split <;> omega)
  simp only [push, bind, Except.bind, pure, Except.pure] at h
  split at h
  · injection h with h; subst h
    exact key ⟨s.heap ++ [⟨v, none⟩], some s.heap.length, s.last_, s.capacity_, s.size_⟩ rfl rfl
  · split at h
    · exact absurd h (by simp)
    · rename_i u hu
      injection h with h; subst h
      obtain ⟨e1, e2⟩ := safe_push_size _ _ _ _ _ hu
      exact key u e1 e2

theorem pop_sizeOk (C : Int) (s t : CircleBufferDynamic α) (x : α)
    (hs : SizeOk C s) (h : pop s = .ok (x, t)) : SizeOk C t := by
  obtain ⟨h1, h2, h3, h4⟩ := hs
  simp only [pop, bind, Except.bind, pure, Except.pure] at h
  split at h
  · exact absurd h (by simp)
  · rename_i hne
    have h5 := h4 hne
    split at h
    · exact absurd h (by simp)
    · injection h with h
      injection h with _ h
      subst h
      by_cases hz : s.size_ - 1 = 0
      · simp only [hz, if_true]
        exact ⟨h1, le_refl _, by show (0 : Int) ≤ C; omega, fun h => absurd rfl h⟩
      · simp only [hz, if_false]
        exact ⟨h1, by show 0 ≤ s.size_ - 1; omega, by show s.size_ - 1 ≤ C; omega,
          fun _ => by show 1 ≤ s.size_ - 1; omega⟩

theorem run_sizeOk (C : Int) (hC : 1 ≤ C) (ops : List (Op α)) :
    ∀ (s t : CircleBufferDynamic α) (out : List α), SizeOk C s → run s ops = .ok (out, t) →
      SizeOk C t := by
  induction ops with
  | nil =>
    intro s t out hs h
    simp only [run, Except.ok.injEq, Prod.mk.injEq] at h
    rw [← h.2]; exact hs
  | cons op rest ih =>
    intro s t out hs h
    cases op with
    | push v =>
      cases hp : push s v with
      | error e => simp [run, hp, bind, Except.bind] at h
      | ok s1 =>
        rw [run_cons_push s s1 _ v hp] at h
        exact ih s1 t out (push_sizeOk C hC s s1 v hs hp) h
    | pop =>
      cases hp : pop s with
      | error e => simp [run, hp, bind, Except.bind] at h
      | ok r =>
        obtain ⟨x, s1⟩ := r
        cases hr : run s1 rest with
        | error e => simp [run, hp, hr, bind, Except.bind] at h
        | ok r2 =>
          obtain ⟨out2, t2⟩ := r2
          rw [run_cons_pop s s1 t2 rest x out2 hp hr] at h
          simp only [Except.ok.injEq, Prod.mk.injEq] at h
          rw [← h.2]
          exact ih s1 t2 out2 (pop_sizeOk C s s1 x hs hp) hr

/-- For every capacity `C >= 1`, every state reached from `CircleBufferDynamic(C)` by `push`
calls and non-throwing `pop` calls has `0 <= size_ <= capacity_`. -/
theorem size_bounds_of_positive_capacity (C : Int) (hC : 1 ≤ C) (ops : List (Op α))
    (out : List α) (s : CircleBufferDynamic α) (h : runFresh C ops = .ok (out, s)) :
    0 ≤ s.size_ ∧ s.size_ ≤ s.capacity_ := by
  have hc : ¬ C < 0 := by omega
  simp only [runFresh, construct, hc, if_false, bind, Except.bind] at h
  have := run_sizeOk C hC ops _ s out
    ⟨rfl, le_refl _, by show (0 : Int) ≤ C; omega, fun h => absurd rfl h⟩ h
  exact ⟨this.2.1, by rw [this.1]; exact this.2.2.1⟩

theorem closed_set (heap : List (node α)) (R : Nat → Prop) (b : Nat) (nb : node α) (y : Nat)
    (hc : Closed heap R) (hb : b < heap.length) (hn : nb.next = some y) (hy : R y) :
    Closed (heap.set b nb) R := by
  intro x hx
  obtain ⟨nd, z, e1, e2, e3⟩ := hc x hx
  by_cases hxb : x = b
  · subst hxb
    exact ⟨nb, y, by rw [List.getElem?_set_self hb], hn, hy⟩
  · exact ⟨nd, z, by rw [List.getElem?_set_ne (Ne.symm hxb)]; exact e1, e2, e3⟩

theorem grow_closed (heap : List (node α)) (R : Nat → Prop) (c a : Nat) (nc : node α) (v : α)
    (hc : c < heap.length) (hn : nc.next = some heap.length)
    (hR : ∀ x, R x → x ≠ c → ∃ nd y, heap[x]? = some nd ∧ nd.next = some y ∧ R y)
    (ha : R a) :
    Closed (((heap ++ [(⟨v, none⟩ : node α)]).set c nc).set heap.length ⟨v, some a⟩)
      (fun x => R x ∨ x = heap.length) := by
  intro x hx
  by_cases hxn : x = heap.length
  · subst hxn
    exact ⟨⟨v, some a⟩, a, by rw [List.getElem?_set_self (by simp)], rfl, Or.inl ha⟩
  · have hxR : R x := hx.resolve_right hxn
    rw [List.getElem?_set_ne (Ne.symm hxn)]
    by_cases hxc : x = c
    · subst hxc
      exact ⟨nc, heap.length, by rw [List.getElem?_set_self (by simp; omega)], hn, Or.inr rfl⟩
    · obtain ⟨nd, y, e1, e2, e3⟩ := hR x hxR hxc
      have hxl : x < heap.length := by
        by_contra hcon
        rw [List.getElem?_eq_none (by omega)] at e1
        exact absurd e1 (by simp)
      refine ⟨nd, y, ?_, e2, Or.inl e3⟩
      rw [List.getElem?_set_ne (Ne.symm hxc), List.getElem?_append_left hxl]
      exact e1

theorem getElem?_lt {β : Type} (l : List β) (i : Nat) (x : β) (h : l[i]? = some x) :
    i < l.length := by
  by_contra hcon
  rw [List.getElem?_eq_none (by omega)] at h
  exact absurd h (by simp)

theorem load_some (heap : List (node α)) (x : Nat) (nd : node α) (h : heap[x]? = some nd) :
    load heap (some x) = .ok (x, nd) := by
  simp [load, h]

theorem safe_push_closed (v : α) : ∀ (fuel : Nat) (c : Nat) (s t : CircleBufferDynamic α)
    (R : Nat → Prop) (a l : Nat),
    Closed s.heap R → s.first_ = some a → R a → s.last_ = some l → R l → R c →
    safe_push fuel (some c) v s = .ok t →
    ∃ (R1 : Nat → Prop) (a1 l1 : Nat),
      Closed t.heap R1 ∧ t.first_ = some a1 ∧ R1 a1 ∧ t.last_ = some l1 ∧ R1 l1 := by
  intro fuel
  induction fuel with
  | zero => intro c s t R a l _ _ _ _ _ _ h; simp [safe_push] at h
  | succ fuel ih =>
    intro c s t R a l hcl hf ha hl hRl hRc h
    obtain ⟨cur, y, hcur, hny, hRy⟩ := hcl c hRc
    have hcl0 := getElem?_lt _ _ _ hcur
    have hload : load s.heap (some c) = .ok (c, cur) := by simp [load, hcur]
    rw [safe_push] at h
    simp only [hload, bind, Except.bind] at h
    by_cases hc1 : (cur.next = s.first_ ∨ cur.next = none) ∧ s.size_ < s.capacity_
    · rw [if_pos hc1] at h
      simp only [pure, Except.pure] at h
      have hget : ((s.heap ++ [(⟨v, none⟩ : node α)]).set c
          ⟨cur.key, some s.heap.length⟩)[s.heap.length]? = some ⟨v, none⟩ := by
        rw [List.getElem?_set_ne (by omega)]; simp
      rw [load_some _ _ _ hget] at h
      simp only at h
      injection h with h
      subst h
      refine ⟨fun x => R x ∨ x = s.heap.length, a, s.heap.length, ?_, hf, Or.inl ha, rfl,
        Or.inr rfl⟩
      show Closed (List.set _ _ _) _
      rw [hf]
      exact grow_closed s.heap R c a _ v hcl0 rfl (fun x hx _ => hcl x hx) ha
    · rw [if_neg hc1] at h
      by_cases hc2 : s.size_ = s.capacity_
      · rw [if_pos hc2] at h
        obtain ⟨ln, b, hln, hlb, hRb⟩ := hcl l hRl
        obtain ⟨nb, z, hnb, hnz, hRz⟩ := hcl b hRb
        have hb0 := getElem?_lt _ _ _ hnb
        rw [hl, load_some _ _ _ hln] at h
        simp only [hlb] at h
        rw [load_some _ _ _ hnb] at h
        simp only at h
        rw [load_some _ b ⟨v, nb.next⟩ (List.getElem?_set_self hb0)] at h
        simp only [pure, Except.pure] at h
        rw [load_some _ b ⟨v, nb.next⟩ (List.getElem?_set_self hb0)] at h
        simp only at h
        injection h with h
        subst h
        refine ⟨R, z, b, ?_, hnz, hRz, rfl, hRb⟩
        exact closed_set _ R b _ z (closed_set _ R b _ z hcl hb0 hnz hRz) (by simpa using hb0)
          hnz hRz
      · rw [if_neg hc2] at h
        rw [hny] at h
        cases hrec : safe_push fuel (some y) v s with
        | error e =>
          rw [hrec] at h
          exact absurd h (by simp)
        | ok u =>
          rw [hrec] at h
          obtain ⟨R1, a1, l1, q1, q2, q3, q4, q5⟩ := ih y s u R a l hcl hf ha hl hRl hRy hrec
          obtain ⟨ln, b, hln, -, -⟩ := q1 l1 q5
          simp only at h
          rw [q4, load_some _ _ _ hln] at h
          simp only [pure, Except.pure] at h
          injection h with h
          subst h
          refine ⟨R1, a1, l1, ?_, q2, q3, rfl, q5⟩
          exact closed_set _ R1 l1 _ a1 q1 (getElem?_lt _ _ _ hln) q2 q3

theorem safe_push_single (v : α) (fuel : Nat) (a : Nat) (nd : node α)
    (s t : CircleBufferDynamic α) (hf : s.first_ = some a) (hnd : s.heap[a]? = some nd)
    (hn : nd.next = none) (hsz : s.size_ = 1) (hlast : s.capacity_ = 1 → s.last_ = none)
    (hcap : 1 ≤ s.capacity_) (h : safe_push fuel (some a) v s = .ok t) :
    ∃ (R1 : Nat → Prop) (l1 : Nat),
      Closed t.heap R1 ∧ t.first_ = some a ∧ R1 a ∧ t.last_ = some l1 ∧ R1 l1 := by
  cases fuel with
  | zero => simp [safe_push] at h
  | succ fuel =>
    have ha0 := getElem?_lt _ _ _ hnd
    rw [safe_push] at h
    simp only [load_some _ _ _ hnd, bind, Except.bind] at h
    by_cases hc : s.capacity_ = 1
    · exfalso
      rw [if_neg (by omega), if_pos (by omega), hlast hc] at h
      simp [load] at h
    · rw [if_pos ⟨Or.inr hn, by omega⟩] at h
      simp only [pure, Except.pure] at h
      have hget : ((s.heap ++ [(⟨v, none⟩ : node α)]).set a
          ⟨nd.key, some s.heap.length⟩)[s.heap.length]? = some ⟨v, none⟩ := by
        rw [List.getElem?_set_ne (by omega)]; simp
      rw [load_some _ _ _ hget] at h
      simp only at h
      injection h with h
      subst h
      refine ⟨fun x => x = a ∨ x = s.heap.length, s.heap.length, ?_, hf, Or.inl rfl, rfl,
        Or.inr rfl⟩
      show Closed (List.set _ _ _) _
      rw [hf]
      exact grow_closed s.heap (fun x => x = a) a a _ v ha0 rfl
        (fun x hx hne => absurd hx hne) rfl

theorem push_popInv (C : Int) (hC : 1 ≤ C) (s t : CircleBufferDynamic α) (v : α)
    (hs : PopInv C s) (h : push s v = .ok t) : PopInv C t := by
  obtain ⟨h1, h2, h3, h4, h5, h6⟩ := hs
  simp only [push, bind, Except.bind, pure, Except.pure] at h
  by_cases hf : s.first_ = none
  · rw [if_pos hf] at h
    injection h with h
    subst h
    have hz := h4.1 hf
    have hsz : (if s.size_ + 1 < s.capacity_ then s.size_ + 1 else s.capacity_) = 1 := by
      split <;> omega
    refine ⟨h1, ?_, ?_, ?_, h5, ?_⟩
    · show 0 ≤ (if s.size_ + 1 < s.capacity_ then s.size_ + 1 else s.capacity_)
      omega
    · show (if s.size_ + 1 < s.capacity_ then s.size_ + 1 else s.capacity_) ≤ C
      omega
    · show (some s.heap.length = none) ↔
        (if s.size_ + 1 < s.capacity_ then s.size_ + 1 else s.capacity_) = 0
      rw [hsz]; simp
    · intro a ha
      have ha : some s.heap.length = some a := ha
      injection ha with ha
      subst ha
      exact Or.inl ⟨⟨v, none⟩, by show (s.heap ++ [_])[s.heap.length]? = _; simp, rfl, hsz⟩
  · rw [if_neg hf] at h
    obtain ⟨a, ha⟩ := Option.ne_none_iff_exists'.mp hf
    have hpos : 1 ≤ s.size_ := by
      have : s.size_ ≠ 0 := fun hz => hf (h4.2 hz)
      omega
    cases hsp : safe_push (s.heap.length + 1) s.first_ v s with
    | error e =>
      rw [hsp] at h
      exact absurd h (by simp)
    | ok u =>
      rw [hsp] at h
      simp only at h
      injection h with h
      subst h
      obtain ⟨e1, e2⟩ := safe_push_size _ _ _ _ _ hsp
      have key : ∃ (R1 : Nat → Prop) (a1 l1 : Nat),
          Closed u.heap R1 ∧ u.first_ = some a1 ∧ R1 a1 ∧ u.last_ = some l1 ∧ R1 l1 := by
        rw [ha] at hsp
        rcases h6 a ha with ⟨nd, hnd, hn, hsz⟩ | ⟨R, hcl, hRa, l, hl, hRl⟩
        · obtain ⟨R1, l1, q⟩ := safe_push_single v _ a nd s u ha hnd hn hsz
            (fun hc => h5 (by omega)) (by omega) hsp
          exact ⟨R1, a, l1, q⟩
        · exact safe_push_closed v _ a s u R a l hcl ha hRa hl hRl hRa hsp
      obtain ⟨R1, a1, l1, q1, q2, q3, q4, q5⟩ := key
      have hC1 : C ≠ 1 := by
        intro hc
        have hnone := h5 hc
        rw [ha] at hsp
        rcases h6 a ha with ⟨nd, hnd, hn, hsz⟩ | ⟨R, hcl, hRa, l, hl, hRl⟩
        · have hnd0 := getElem?_lt _ _ _ hnd
          rw [safe_push] at hsp
          simp only [load_some _ _ _ hnd, bind, Except.bind] at hsp
          rw [if_neg (by omega), if_pos (by omega), hnone] at hsp
          simp [load] at hsp
        · rw [hnone] at hl
          exact absurd hl (by simp)
      refine ⟨e2.trans h1, ?_, ?_, ?_, fun hc => absurd hc hC1, ?_⟩
      · show 0 ≤ (if u.size_ + 1 < u.capacity_ then u.size_ + 1 else u.capacity_)
        rw [e1, e2]; split <;> omega
      · show (if u.size_ + 1 < u.capacity_ then u.size_ + 1 else u.capacity_) ≤ C
        rw [e1, e2]; split <;> omega
      · show (u.first_ = none) ↔
          (if u.size_ + 1 < u.capacity_ then u.size_ + 1 else u.capacity_) = 0
        rw [q2, e1, e2]
        constructor
        · intro hh; exact absurd hh (by simp)
        · intro hh; exfalso; revert hh; split <;> omega
      · intro b hb
        have hb : u.first_ = some b := hb
        rw [q2] at hb
        injection hb with hb
        subst hb
        exact Or.inr ⟨R1, q1, q3, l1, q4, q5⟩

theorem popCall_spec (C : Int) (s : CircleBufferDynamic α) (hs : PopInv C s) :
    (s.size_ = 0 → popCall s = (.error (.thrown ("Nothing to pop.\n")), s) ∧
      pop s = .error (.thrown ("Nothing to pop.\n"))) ∧
    (s.size_ ≠ 0 → ∃ x t, popCall s = (.ok x, t) ∧ pop s = .ok (x, t) ∧ PopInv C t) := by
  obtain ⟨h1, h2, h3, h4, h5, h6⟩ := hs
  constructor
  · intro hz
    have hf := h4.2 hz
    simp [popCall, pop, hf]
  · intro hz
    have hf : s.first_ ≠ none := fun hf => hz (h4.1 hf)
    obtain ⟨a, ha⟩ := Option.ne_none_iff_exists'.mp hf
    have hnd : ∃ nd, s.heap[a]? = some nd := by
      rcases h6 a ha with ⟨nd, hnd, -, -⟩ | ⟨R, hcl, hRa, -⟩
      · exact ⟨nd, hnd⟩
      · obtain ⟨nd, y, e, -, -⟩ := hcl a hRa
        exact ⟨nd, e⟩
    obtain ⟨nd, hnd⟩ := hnd
    have hload := load_some _ _ _ hnd
    refine ⟨nd.key, if s.size_ - 1 = 0 then ⟨s.heap, none, s.last_, s.capacity_, s.size_ - 1⟩
      else ⟨s.heap, nd.next, s.last_, s.capacity_, s.size_ - 1⟩, ?_, ?_, ?_⟩
    · simp only [popCall, if_neg hf]
      rw [ha, hload]
    · simp only [pop, if_neg hf, bind, Except.bind, pure, Except.pure]
      rw [ha, hload]
    · by_cases h0 : s.size_ - 1 = 0
      · rw [if_pos h0]
        exact ⟨h1, by show (0 : Int) ≤ s.size_ - 1; omega, by show s.size_ - 1 ≤ C; omega,
          ⟨fun _ => h0, fun _ => rfl⟩, h5, fun b hb => absurd hb (by simp)⟩
      · rw [if_neg h0]
        rcases h6 a ha with ⟨nd1, hnd1, -, hsz⟩ | ⟨R, hcl, hRa, l, hl, hRl⟩
        · exact absurd (show s.size_ - 1 = 0 by omega) h0
        · obtain ⟨nd2, y, e1, e2, e3⟩ := hcl a hRa
          rw [hnd] at e1
          injection e1 with e1
          subst e1
          refine ⟨h1, by show (0 : Int) ≤ s.size_ - 1; omega, by show s.size_ - 1 ≤ C; omega,
            ⟨fun hh => ?_, fun hh => absurd hh h0⟩, h5, fun b hb => ?_⟩
          · have hh : nd.next = none := hh
            rw [e2] at hh
            exact absurd hh (by simp)
          · have hb : nd.next = some b := hb
            rw [e2] at hb
            injection hb with hb
            subst hb
            exact Or.inr ⟨R, hcl, e3, l, hl, hRl⟩

theorem runCaught_popInv (C : Int) (hC : 1 ≤ C) (ops : List (Op α)) :
    ∀ (s t : CircleBufferDynamic α), PopInv C s → runCaught s ops = .ok t → PopInv C t := by
  induction ops with
  | nil =>
    intro s t hs h
    simp only [runCaught] at h
    injection h with h
    subst h
    exact hs
  | cons op rest ih =>
    intro s t hs h
    cases op with
    | push v =>
      simp only [runCaught] at h
      cases hp : push s v with
      | error e =>
        rw [hp] at h
        exact absurd h (by simp)
      | ok s1 =>
        rw [hp] at h
        exact ih s1 t (push_popInv C hC s s1 v hs hp) h
    | pop =>
      simp only [runCaught] at h
      obtain ⟨q1, q2⟩ := popCall_spec C s hs
      by_cases hz : s.size_ = 0
      · rw [(q1 hz).1] at h
        exact ih s t hs h
      · obtain ⟨x, s1, e1, -, e3⟩ := q2 hz
        rw [e1] at h
        exact ih s1 t e3 h

/-- Claim C11 (linked buffer pop error contract). For every capacity `C >= 1` and every state
`s` reached from `CircleBufferDynamic(C)` by `push` and `pop` calls, the exceptions of `pop`
being caught, `pop()` throws `"Nothing to pop.\n"` if and only if `size_ == 0`; when it
throws, the state after the call is the state before it; when `size_ != 0` the call returns
a value. -/
theorem pop_error_contract (C : Int) (ops : List (Op α)) (s : CircleBufferDynamic α)
    (hC : 1 ≤ C) (h : runCaughtFresh C ops = .ok s) :
    (pop s = .error (.thrown ("Nothing to pop.\n")) ↔ s.size_ = 0) ∧
    ((popCall s).1 = .error (.thrown ("Nothing to pop.\n")) ↔ s.size_ = 0) ∧
    (s.size_ = 0 → (popCall s).2 = s) ∧
    (s.size_ ≠ 0 → ∃ x t, pop s = .ok (x, t) ∧ popCall s = (.ok x, t)) := by
  have hs : PopInv C s := by
    simp only [runCaughtFresh, construct, if_neg (show ¬ C < 0 by omega)] at h
    refine runCaught_popInv C hC ops _ s ?_ h
    exact ⟨rfl, le_refl _, by show (0 : Int) ≤ C; omega, ⟨fun _ => rfl, fun _ => rfl⟩,
      fun _ => rfl, fun a ha => absurd ha (by simp)⟩
  obtain ⟨q1, q2⟩ := popCall_spec C s hs
  refine ⟨⟨fun hp => ?_, fun hz => (q1 hz).2⟩, ⟨fun hp => ?_, fun hz => ?_⟩, fun hz => ?_,
    fun hz => ?_⟩
  · by_contra hz
    obtain ⟨x, t, -, e, -⟩ := q2 hz
    rw [e] at hp
    exact absurd hp (by simp)
  · by_contra hz
    obtain ⟨x, t, e, -, -⟩ := q2 hz
    rw [e] at hp
    exact absurd hp (by simp)
  · rw [(q1 hz).1]
  · rw [(q1 hz).1]
  · obtain ⟨x, t, e1, e2, -⟩ := q2 hz
    exact ⟨x, t, e2, e1⟩

/-- Witness for `pop_error_contract`: capacity 2 and the calls `push(7)`, `pop()`, `pop()`,
the second `pop` being the one that throws. -/
theorem pop_error_contract_witness :
    (1 : Int) ≤ 2 ∧
    runCaughtFresh 2 [Op.push (7 : Int), Op.pop, Op.pop] = .ok ⟨[⟨7, none⟩], none, none, 2, 0⟩ ∧
    (pop (⟨[⟨7, none⟩], none, none, 2, 0⟩ : CircleBufferDynamic Int) =
      .error (.thrown ("Nothing to pop.\n")) ↔
      (⟨[⟨7, none⟩], none, none, 2, 0⟩ : CircleBufferDynamic Int).size_ = 0) :=
  ⟨by decide, rfl, (pop_error_contract 2 [Op.push (7 : Int), Op.pop, Op.pop]
    ⟨[⟨7, none⟩], none, none, 2, 0⟩ (by decide) rfl).1⟩

/-- Claim C15 as amended (construction validates capacity). For every integer `c`, in
particular every value of `long long`, and every limit `maxLen` of the implementation on the
length of an array of `element_t`: each of the three constructors throws its invalid-size
error if and only if `c < 0`; `CircleBuffer(c)` throws `std::bad_array_new_length`, and no
object exists, if and only if `c >= 0` and `c > maxLen`; when `0 <= c <= maxLen`,
`CircleBuffer(c)` has `capacity_ = c`, `first_ = last_ = 0` and `c` storage slots; when
`c >= 0`, `CircleBufferDynamic(c)` has `capacity_ = c`, `size_ = 0` and no node, and
`CircleBufferDynamic(c, x)` has `capacity_ = c`, `size_ = 1` and one node holding `x`, to
which `first_` and `last_` refer. -/
theorem construction_validates_capacity (maxLen : Nat) (c : Int) (mem : Nat → α) (x : α) :
    (CircleBuffer.construct maxLen c mem = .error (.thrown ("Invalid size.")) ↔ c < 0) ∧
    ((construct c : Except Fault (CircleBufferDynamic α)) =
      .error (.thrown ("Invalid size.\n")) ↔ c < 0) ∧
    (constructWith c x = .error (.thrown ("Invalid size.\n")) ↔ c < 0) ∧
    (CircleBuffer.construct maxLen c mem = .error .badArrayNewLength ↔
      0 ≤ c ∧ (maxLen : Int) < c) ∧
    (0 ≤ c → c ≤ (maxLen : Int) →
      CircleBuffer.construct maxLen c mem = .ok ⟨c, (List.range c.toNat).map mem, 0, 0⟩) ∧
    (0 ≤ c → (construct c : Except Fault (CircleBufferDynamic α)) =
      .ok ⟨[], none, none, c, 0⟩) ∧
    (0 ≤ c → constructWith c x = .ok ⟨[⟨x, none⟩], some 0, some 0, c, 1⟩) := by
  by_cases hc : c < 0
  · have hn : ¬ 0 ≤ c := by omega
    simp [CircleBuffer.construct, construct, constructWith, hc, hn]
  · have hn : 0 ≤ c := by omega
    by_cases hm : maxLen < c.toNat
    · have h1 : (maxLen : Int) < c := by omega
      have h2 : ¬ c ≤ (maxLen : Int) := by omega
      simp [CircleBuffer.construct, construct, constructWith, hc, hn, hm, h1, h2]
    · have h1 : ¬ (maxLen : Int) < c := by omega
      have h2 : c ≤ (maxLen : Int) := by omega
      simp [CircleBuffer.construct, construct, constructWith, hc, hn, hm, h1, h2]

/-- Claim C15 as stated fails on the code. `CircleBuffer<int>(LLONG_MAX)`: the size
`c = 2^63 - 1` is not negative, so the invalid-size error is not thrown, yet `new int[c]`
asks for more than the `PTRDIFF_MAX / sizeof(int) = 2^61 - 1` elements an array of `int` can
have and throws `std::bad_array_new_length`, so no buffer with `capacity_ = c` exists. The
same holds on every implementation whose longest array is shorter than `c`. -/
theorem construction_counterexample :
    (0 : Int) ≤ 9223372036854775807 ∧
    CircleBuffer.construct 2305843009213693951 9223372036854775807 (fun _ => (0 : Int)) =
      .error .badArrayNewLength ∧
    ∀ (maxLen : Nat) (mem : Nat → Int), maxLen < 9223372036854775807 →
      ¬ ∃ s, CircleBuffer.construct maxLen 9223372036854775807 mem = .ok s := by
  refine ⟨by decide, by simp [CircleBuffer.construct], ?_⟩
  intro maxLen mem h
  simp [CircleBuffer.construct, h]

/-- Claim C13 (linked buffer of capacity 1: push cannot fail) fails on the code. On a fresh
`CircleBufferDynamic(1)` the first `push` creates the node and leaves `last_` null; the
second `push` enters `safe_push` with `size_ == capacity_` and evaluates
`last_->next->key = element` through the null `last_`. A buffer built by
`CircleBufferDynamic(1, x)` has `last_` set, and its first `push` evaluates the same
statement with `last_->next` null. A single `push` followed by `pop` does return the value
pushed. -/
theorem capacity_one_second_push_null (v1 v2 : Int) :
    runFresh 1 [Op.push v1, Op.push v2] = .error .nullAccess ∧
    (∃ s, constructWith 1 v1 = .ok s ∧ push s v2 = .error .nullAccess) ∧
    (runFresh 1 [Op.push v1, Op.pop]).map Prod.fst = .ok [v1] :=
  ⟨rfl, ⟨_, rfl, rfl⟩, rfl⟩

end CircleBufferDynamic

/-! ### `Array::qsort` -/

namespace ArraySort

theorem rd_ok (a : List Int) (k : Int) (h0 : 0 ≤ k) (h1 : k < a.length) :
    rd a k = .ok (get a k) := by
  have h : k.toNat < a.length := by omega
  simp only [rd, h0, if_true, List.getElem?_eq_getElem h, get, List.getD_eq_getElem?_getD,
    Option.getD_some]

theorem scanUp_spec (a : List Int) (m : Int) :
    ∀ (fuel : Nat) (i k : Int), 0 ≤ i → i ≤ k → k < a.length → m ≤ get a k →
      (k - i).toNat < fuel →
      ∃ i1, scanUp a m fuel i = .ok i1 ∧ i ≤ i1 ∧ i1 ≤ k ∧ m ≤ get a i1 ∧
        ∀ t, i ≤ t → t < i1 → get a t < m := by
  intro fuel
  induction fuel with
  | zero => intro i k _ _ _ _ h; omega
  | succ fuel ih =>
    intro i k h0 hik hk hs hf
    rw [scanUp, rd_ok a i h0 (by omega)]
    by_cases hlt : m > get a i
    · have hne : i ≠ k := by rintro rfl; omega
      obtain ⟨i1, e, h1, h2, h3, h4⟩ := ih (i + 1) k (by omega) (by omega) hk hs (by omega)
      refine ⟨i1, ?_, by omega, h2, h3, ?_⟩
      · simp only [bind, Except.bind, hlt, if_true, e]
      · intro t ht1 ht2
        by_cases hti : t = i
        · subst hti; exact hlt
        · exact h4 t (by omega) ht2
    · refine ⟨i, ?_, le_refl _, hik, by omega, fun t h1 h2 => by omega⟩
      simp only [bind, Except.bind, hlt, if_false, pure, Except.pure]

theorem scanDown_spec (a : List Int) (m : Int) :
    ∀ (fuel : Nat) (j k : Int), 0 ≤ k → k ≤ j → j < a.length → get a k ≤ m →
      (j - k).toNat < fuel →
      ∃ j1, scanDown a m fuel j = .ok j1 ∧ k ≤ j1 ∧ j1 ≤ j ∧ get a j1 ≤ m ∧
        ∀ t, j1 < t → t ≤ j → m < get a t := by
  intro fuel
  induction fuel with
  | zero => intro j k _ _ _ _ h; omega
  | succ fuel ih =>
    intro j k h0 hkj hj hs hf
    rw [scanDown, rd_ok a j (by omega) hj]
    by_cases hlt : get a j > m
    · have hne : j ≠ k := by rintro rfl; omega
      obtain ⟨j1, e, h1, h2, h3, h4⟩ := ih (j - 1) k h0 (by omega) (by omega) hs (by omega)
      refine ⟨j1, ?_, h1, by omega, h3, ?_⟩
      · simp only [bind, Except.bind, hlt, if_true, e]
      · intro t ht1 ht2
        by_cases hti : t = j
        · subst hti; exact hlt
        · exact h4 t ht1 (by omega)
    · refine ⟨j, ?_, hkj, le_refl _, by omega, fun t h1 h2 => by omega⟩
      simp only [bind, Except.bind, hlt, if_false, pure, Except.pure]

theorem get_set (a : List Int) (u : Nat) (x : Int) (t : Int) (hu : u < a.length) :
    get (a.set u x) t = if t.toNat = u then x else get a t := by
  simp only [get, List.getD_eq_getElem?_getD, List.getElem?_set]
  by_cases h : t.toNat = u
  · subst h
    simp [hu]
  · have : u ≠ t.toNat := fun e => h e.symm
    simp [h, this]

theorem swapNat_perm (a : List Int) (u v : Nat) (hu : u < a.length) (hv : v < a.length) :
    List.Perm ((a.set u a[v]).set v a[u]) a := by
  rw [List.perm_iff_count]
  intro x
  rw [List.count_set _ _ _ _ (by simpa using hv), List.count_set _ _ _ _ hu]
  have h1 := List.boole_getElem_le_countP (· == x) a u hu
  have h2 := List.boole_getElem_le_countP (· == x) a v hv
  rw [← List.count_eq_countP] at h1 h2
  by_cases huv : u = v
  · subst huv
    simp only [List.getElem_set_self]
    omega
  · rw [List.getElem_set_ne huv]
    omega

theorem get_mid (pre seg post : List Int) (u : Nat) (hu : u < seg.length) :
    get (pre ++ seg ++ post) ((pre.length + u : Nat) : Int) = seg[u] := by
  simp only [get, Int.toNat_ofNat, List.getD_eq_getElem?_getD, List.append_assoc]
  rw [List.getElem?_append_right (by omega), Nat.add_sub_cancel_left,
    List.getElem?_append_left hu, List.getElem?_eq_getElem hu, Option.getD_some]

theorem set_mid (pre seg post : List Int) (u : Nat) (x : Int) (hu : u < seg.length) :
    (pre ++ seg ++ post).set (pre.length + u) x = pre ++ seg.set u x ++ post := by
  rw [List.set_append_left _ _ (by simp; omega), List.set_append_right _ _ (by omega),
    Nat.add_sub_cancel_left]

theorem swap_spec (a : List Int) (i j : Int) (hi0 : 0 ≤ i) (hi : i < a.length)
    (hj0 : 0 ≤ j) (hj : j < a.length) :
    ∃ a1, swap a i j = .ok a1 ∧ a1.length = a.length ∧
      get a1 i = get a j ∧ get a1 j = get a i ∧
      (∀ t, 0 ≤ t → t ≠ i → t ≠ j → get a1 t = get a t) ∧
      (∀ pre seg post : List Int, a = pre ++ seg ++ post → (pre.length : Int) ≤ i →
        i < pre.length + seg.length → (pre.length : Int) ≤ j → j < pre.length + seg.length →
        ∃ seg1, a1 = pre ++ seg1 ++ post ∧ List.Perm seg1 seg) := by
  have hiu : i.toNat < a.length := by omega
  have hju : j.toNat < a.length := by omega
  have hju2 : j.toNat < (a.set i.toNat (get a j)).length := by simpa using hju
  refine ⟨(a.set i.toNat (get a j)).set j.toNat (get a i), ?_, by simp, ?_, ?_, ?_, ?_⟩
  · simp only [swap, rd_ok a i hi0 hi, rd_ok a j hj0 hj, bind, Except.bind, pure, Except.pure]
  · rw [get_set _ _ _ _ hju2, get_set _ _ _ _ hiu, if_pos rfl]
    by_cases hij : i.toNat = j.toNat
    · rw [if_pos hij]
      have : i = j := by omega
      rw [this]
    · rw [if_neg hij]
  · rw [get_set _ _ _ _ hju2, if_pos rfl]
  · intro t ht hti htj
    rw [get_set _ _ _ _ hju2, get_set _ _ _ _ hiu, if_neg (by omega), if_neg (by omega)]
  · intro pre seg post ha hli hir hlj hjr
    obtain ⟨u, hu⟩ : ∃ u : Nat, i.toNat = pre.length + u := ⟨i.toNat - pre.length, by omega⟩
    obtain ⟨v, hv⟩ : ∃ v : Nat, j.toNat = pre.length + v := ⟨j.toNat - pre.length, by omega⟩
    have hul : u < seg.length := by omega
    have hvl : v < seg.length := by omega
    have gi : get a i = seg[u] := by
      rw [ha, ← get_mid pre seg post u hul, ← hu]; congr 1; omega
    have gj : get a j = seg[v] := by
      rw [ha, ← get_mid pre seg post v hvl, ← hv]; congr 1; omega
    refine ⟨(seg.set u seg[v]).set v seg[u], ?_, swapNat_perm seg u v hul hvl⟩
    rw [gi, gj, hu, hv, ha, set_mid _ _ _ _ _ hul, set_mid _ _ _ _ _ (by simpa using hvl)]

theorem partition_spec (pre post : List Int) (m : Int) :
    ∀ (fuel : Nat) (seg : List Int) (i j : Int),
      (pre.length : Int) ≤ i → j ≤ (pre.length : Int) + seg.length - 1 →
      (pre.length : Int) - 1 ≤ j → i ≤ (pre.length : Int) + seg.length →
      (∀ t, (pre.length : Int) ≤ t → t < i → get (pre ++ seg ++ post) t ≤ m) →
      (∀ t, j < t → t ≤ (pre.length : Int) + seg.length - 1 → m ≤ get (pre ++ seg ++ post) t) →
      (i < j → (∃ k, i ≤ k ∧ k ≤ (pre.length : Int) + seg.length - 1 ∧
                  m ≤ get (pre ++ seg ++ post) k) ∧
               (∃ k, (pre.length : Int) ≤ k ∧ k ≤ j ∧ get (pre ++ seg ++ post) k ≤ m)) →
      (j - i + 1).toNat < fuel →
      ∃ seg1 i1 j1,
        partitionLoop m fuel (pre ++ seg ++ post) i j = .ok (pre ++ seg1 ++ post, i1, j1) ∧
        List.Perm seg1 seg ∧ j1 ≤ i1 ∧ i ≤ i1 ∧ j1 ≤ j ∧
        (pre.length : Int) - 1 ≤ j1 ∧ i1 ≤ (pre.length : Int) + seg.length ∧
        (∀ t, (pre.length : Int) ≤ t → t < i1 → get (pre ++ seg1 ++ post) t ≤ m) ∧
        (∀ t, j1 < t → t ≤ (pre.length : Int) + seg.length - 1 →
          m ≤ get (pre ++ seg1 ++ post) t) ∧
        ((∃ k, i ≤ k ∧ k ≤ j ∧ get (pre ++ seg ++ post) k = m) → i < j → i < i1 ∧ j1 < j) := by
  intro fuel
  induction fuel with
  | zero => intro seg i j _ _ _ _ _ _ _ h; omega
  | succ fuel ih =>
    intro seg i j hli hjr hlj hir hA hB hC hf
    by_cases hij : i < j
    · obtain ⟨⟨ku, hku1, hku2, hku3⟩, ⟨kd, hkd1, hkd2, hkd3⟩⟩ := hC hij
      have hlen : ((pre ++ seg ++ post).length : Int) = pre.length + seg.length + post.length := by
        simp only [List.length_append]; push_cast; ring
      obtain ⟨i1, e1, hi1a, hi1b, hi1c, hi1d⟩ := scanUp_spec (pre ++ seg ++ post) m
        ((pre ++ seg ++ post).length + 1) i ku (by omega) hku1 (by omega) hku3 (by omega)
      obtain ⟨j1, e2, hj1a, hj1b, hj1c, hj1d⟩ := scanDown_spec (pre ++ seg ++ post) m
        ((pre ++ seg ++ post).length + 1) j kd (by omega) hkd2 (by omega) hkd3 (by omega)
      rw [partitionLoop]
      simp only [gt_iff_lt, hij, if_true, e1, e2, bind, Except.bind]
      by_cases hsw : i1 ≤ j1
      · obtain ⟨a1, e3, -, g1, g2, g3, g4⟩ := swap_spec (pre ++ seg ++ post) i1 j1
          (by omega) (by omega) (by omega) (by omega)
        obtain ⟨seg1, ha1, hp1⟩ := g4 pre seg post rfl (by omega) (by omega) (by omega) (by omega)
        subst ha1
        have hl1 : seg1.length = seg.length := hp1.length_eq
        obtain ⟨seg2, i2, j2, e4, hp2, q1, q2, q3, q4, q5, q6, q7, -⟩ :=
          ih seg1 (i1 + 1) (j1 - 1) (by omega) (by omega) (by omega) (by omega)
            (by
              intro t ht1 ht2
              by_cases hti : t = i1
              · subst hti; rw [g1]; exact hj1c
              · rw [g3 t (by omega) hti (by omega)]
                by_cases hlt : t < i
                · exact hA t ht1 hlt
                · exact le_of_lt (hi1d t (by omega) (by omega)))
            (by
              intro t ht1 ht2
              by_cases htj : t = j1
              · subst htj; rw [g2]; exact hi1c
              · rw [g3 t (by omega) (by omega) htj]
                by_cases hlt : j < t
                · exact hB t hlt (by omega)
                · exact le_of_lt (hj1d t (by omega) (by omega)))
            (by
              intro h
              exact ⟨⟨j1, by omega, by omega, by rw [g2]; exact hi1c⟩,
                ⟨i1, by omega, by omega, by rw [g1]; exact hj1c⟩⟩)
            (by omega)
        refine ⟨seg2, i2, j2, ?_, hp2.trans hp1, q1, by omega, by omega, q4, by omega, q6, ?_, ?_⟩
        · simp only [hsw, if_true, e3, e4]
        · intro t ht1 ht2; exact q7 t ht1 (by omega)
        · intro _ _; omega
      · obtain ⟨seg2, i2, j2, e4, hp2, q1, q2, q3, q4, q5, q6, q7, -⟩ :=
          ih seg i1 j1 (by omega) (by omega) (by omega) (by omega)
            (by
              intro t ht1 ht2
              by_cases hlt : t < i
              · exact hA t ht1 hlt
              · exact le_of_lt (hi1d t (by omega) ht2))
            (by
              intro t ht1 ht2
              by_cases hlt : j < t
              · exact hB t hlt ht2
              · exact le_of_lt (hj1d t ht1 (by omega)))
            (by intro h; omega)
            (by omega)
        refine ⟨seg2, i2, j2, ?_, hp2, q1, by omega, by omega, q4, q5, q6, q7, ?_⟩
        · simp only [hsw, if_false, e4]
        · rintro ⟨k, hk1, hk2, hk3⟩ _
          exfalso
          have h1 : i1 ≤ k := by
            by_contra hc
            have := hi1d k hk1 (by omega)
            omega
          have h2 : k ≤ j1 := by
            by_contra hc
            have := hj1d k (by omega) hk2
            omega
          omega
    · refine ⟨seg, i, j, ?_, List.Perm.refl _, by omega, le_refl _, le_refl _, hlj, hir, hA, hB,
        fun _ h => absurd h hij⟩
      rw [partitionLoop]
      simp only [gt_iff_lt, hij, if_false, pure, Except.pure]

theorem step_general (pre seg post rest : List Int) (h2 : 2 ≤ seg.length)
    (hgen : seg.length ≠ 2 ∨ get (pre ++ seg ++ post) pre.length ≤
      get (pre ++ seg ++ post) ((pre.length : Int) + seg.length - 1)) :
    ∃ (seg1 : List Int) (p q : Nat) (m : Int),
      qsortStep (pre ++ seg ++ post) pre.length ((pre.length : Int) + seg.length - 1) rest =
        .ok (pre ++ seg1 ++ post, pushed pre.length seg.length p q rest) ∧
      List.Perm seg1 seg ∧ 1 ≤ p ∧ p ≤ seg.length ∧ q + 1 ≤ seg.length ∧ q ≤ p + 1 ∧
      (∀ x ∈ seg1.take p, x ≤ m) ∧ (∀ x ∈ seg1.drop q, m ≤ x) := by
  have hlen : ((pre ++ seg ++ post).length : Int) = pre.length + seg.length + post.length := by
    simp only [List.length_append]; push_cast; ring
  have hl0 : (0 : Int) ≤ pre.length := Int.ofNat_nonneg _
  have hmid : ((pre.length : Int) + ((pre.length : Int) + seg.length - 1)).tdiv 2 =
      ((pre.length : Int) + ((pre.length : Int) + seg.length - 1)) / 2 :=
    Int.tdiv_eq_ediv (by omega) (by omega)
  obtain ⟨seg1, i1, j1, e, hp, q1, -, -, q4, q5, q6, q7, q8⟩ :=
    partition_spec pre post
      (get (pre ++ seg ++ post) (((pre.length : Int) + ((pre.length : Int) + seg.length - 1)) / 2))
      ((pre ++ seg ++ post).length + 2) seg pre.length ((pre.length : Int) + seg.length - 1)
      (le_refl _) (le_refl _) (by omega) (by omega)
      (by intro t h1 h2; omega) (by intro t h1 h2; omega)
      (by
        intro _
        exact ⟨⟨_, by omega, by omega, le_refl _⟩, ⟨_, by omega, by omega, le_refl _⟩⟩)
      (by omega)
  obtain ⟨q9, q10⟩ := q8 ⟨_, by omega, by omega, rfl⟩ (by omega)
  have hl1 : seg1.length = seg.length := hp.length_eq
  refine ⟨seg1, (i1 - pre.length).toNat, (j1 + 1 - pre.length).toNat,
    get (pre ++ seg ++ post) (((pre.length : Int) + ((pre.length : Int) + seg.length - 1)) / 2),
    ?_, hp, by omega, by omega, by omega, by omega, ?_, ?_⟩
  · have hrd := rd_ok (pre ++ seg ++ post)
      (((pre.length : Int) + ((pre.length : Int) + seg.length - 1)) / 2) (by omega) (by omega)
    have hstep : qsortStep (pre ++ seg ++ post) pre.length
        ((pre.length : Int) + seg.length - 1) rest = .ok (pre ++ seg1 ++ post,
          if i1 < (pre.length : Int) + seg.length - 1 then
            ((pre.length : Int) + seg.length - 1) :: i1 ::
              (if (pre.length : Int) < j1 then j1 :: (pre.length : Int) :: rest else rest)
          else (if (pre.length : Int) < j1 then j1 :: (pre.length : Int) :: rest else rest)) := by
      by_cases h : (pre.length : Int) + seg.length - 1 - pre.length ≠ 1
      · simp only [qsortStep, h, if_true, bind, Except.bind, pure, Except.pure, hmid, hrd, e,
          ne_eq, not_false_eq_true]
      · have h3 : seg.length = 2 := by omega
        have h4 := hgen.resolve_left (fun h => h h3)
        simp only [qsortStep, h, if_false, bind, Except.bind, pure, Except.pure, hmid, hrd, e,
          rd_ok _ _ hl0 (show ((pre.length : Int)) < ((pre ++ seg ++ post).length : Int) by omega),
          rd_ok _ _ (show (0 : Int) ≤ (pre.length : Int) + seg.length - 1 by omega)
            (show (pre.length : Int) + seg.length - 1 < ((pre ++ seg ++ post).length : Int) by
              omega), h4, decide_True, if_true]
    rw [hstep]
    simp only [pushed]
    have c1 : ((pre.length : Int) < j1) ↔ 1 < (j1 + 1 - pre.length).toNat := by omega
    have c2 : (i1 < (pre.length : Int) + seg.length - 1) ↔
        (i1 - pre.length).toNat + 1 < seg.length := by omega
    have c3 : ((pre.length : Int) + ((j1 + 1 - pre.length).toNat : Nat) - 1) = j1 := by omega
    have c4 : ((pre.length : Int) + ((i1 - pre.length).toNat : Nat)) = i1 := by omega
    simp only [c1, c2, c3, c4]
  · intro x hx
    rw [List.mem_take_iff_getElem] at hx
    obtain ⟨u, hu, rfl⟩ := hx
    have hu1 : u < seg1.length := by omega
    rw [← get_mid pre seg1 post u hu1]
    exact q6 _ (by push_cast; omega) (by push_cast; omega)
  · intro x hx
    rw [List.mem_drop_iff_getElem] at hx
    obtain ⟨u, hu, rfl⟩ := hx
    have hu2 : (j1 + 1 - pre.length).toNat + u < seg1.length := by omega
    rw [← get_mid pre seg1 post _ hu2]
    exact q7 _ (by push_cast; omega) (by push_cast; omega)

theorem combine_sorted (U V0 V W : List Int) (q : Nat) (m : Int)
    (hU : ∀ x ∈ U, x ≤ m) (hD : ∀ x ∈ (U ++ V0).drop q, m ≤ x)
    (hV : List.Perm V V0) (hVs : V.Sorted (· ≤ ·))
    (hW : List.Perm W ((U ++ V).take q)) (hWs : W.Sorted (· ≤ ·))
    (hq : q + 1 ≤ U.length + V0.length) (hqp : q ≤ U.length + 1) :
    (W ++ (U ++ V).drop q).Sorted (· ≤ ·) ∧ List.Perm (W ++ (U ++ V).drop q) (U ++ V0) := by
  have hVl : V.length = V0.length := hV.length_eq
  constructor
  · by_cases hle : q ≤ U.length
    · -- the left range ends before the right range starts
      rw [List.drop_append_of_le_length hle] at hD ⊢
      rw [List.take_append_of_le_length hle] at hW
      have hWm : ∀ x ∈ W, x ≤ m := fun x hx => hU x (List.mem_of_mem_take ((hW.mem_iff).1 hx))
      have hmid1 : ∀ x ∈ U.drop q, x ≤ m := fun x hx => hU x (List.mem_of_mem_drop hx)
      have hmid2 : ∀ x ∈ U.drop q, m ≤ x := fun x hx => hD x (List.mem_append_left _ hx)
      have hVm : ∀ x ∈ V, m ≤ x :=
        fun x hx => hD x (List.mem_append_right _ ((hV.mem_iff).1 hx))
      refine List.pairwise_append.2 ⟨hWs, List.pairwise_append.2 ⟨?_, hVs, ?_⟩, ?_⟩
      · exact List.pairwise_of_forall_mem_list
          (fun a ha b hb => le_trans (hmid1 a ha) (hmid2 b hb))
      · exact fun a ha b hb => le_trans (hmid1 a ha) (hVm b hb)
      · intro a ha b hb
        rcases List.mem_append.1 hb with hb | hb
        · exact le_trans (hWm a ha) (hmid2 b hb)
        · exact le_trans (hWm a ha) (hVm b hb)
    · -- the two ranges share one position
      have hqe : q = U.length + 1 := by omega
      subst hqe
      rw [List.drop_append] at hD ⊢
      rw [List.take_append] at hW
      match V, hV, hVs, hW, hVl with
      | [], _, _, _, hVl => simp at hVl; omega
      | y0 :: Vt, hV, hVs, hW, _ =>
        have hy0 : ∀ y ∈ Vt, y0 ≤ y := (List.sorted_cons.1 hVs).1
        have hcnt : List.countP (fun x => decide (x < m)) (y0 :: Vt) ≤ 1 := by
          rw [hV.countP_eq, ← List.take_append_drop 1 V0, List.countP_append]
          have h1 : List.countP (fun x => decide (x < m)) (V0.drop 1) = 0 := by
            rw [List.countP_eq_zero]
            intro a ha
            have := hD a ha
            simp only [decide_eq_true_eq]; omega
          have h2 := List.countP_le_length (fun x => decide (x < m)) (l := V0.take 1)
          have h3 : (V0.take 1).length ≤ 1 := by simp
          omega
        have hVtm : ∀ y ∈ Vt, m ≤ y := by
          intro y hy
          by_contra hc
          have hym : y < m := by omega
          have h1 : 0 < List.countP (fun x => decide (x < m)) Vt :=
            List.countP_pos_iff.2 ⟨y, hy, by simpa using hym⟩
          have h2 : y0 < m := lt_of_le_of_lt (hy0 y hy) hym
          rw [List.countP_cons] at hcnt
          simp only [h2, decide_True, if_true] at hcnt
          omega
        simp only [List.drop_succ_cons, List.drop_zero, List.take_succ_cons, List.take_zero]
          at hW ⊢
        refine List.pairwise_append.2 ⟨hWs, (List.sorted_cons.1 hVs).2, ?_⟩
        intro a ha b hb
        rcases List.mem_append.1 ((hW.mem_iff).1 ha) with h | h
        · exact le_trans (hU a h) (hVtm b hb)
        · rw [List.mem_singleton] at h
          subst h
          exact hy0 b hb
  · have h1 : List.Perm (W ++ (U ++ V).drop q) ((U ++ V).take q ++ (U ++ V).drop q) :=
      hW.append_right _
    rw [List.take_append_drop] at h1
    exact h1.trans (hV.append_left _)

theorem qsortLoop_step (fuel : Nat) (a a1 : List Int) (left right : Int) (rest idx : List Int)
    (h : qsortStep a left right rest = .ok (a1, idx)) :
    qsortLoop (fuel + 1) a (right :: left :: rest) = qsortLoop fuel a1 idx := by
  rw [qsortLoop]
  simp only [h, bind, Except.bind]

theorem sorted_short (l : List Int) (h : l.length ≤ 1) : l.Sorted (· ≤ ·) := by
  match l, h with
  | [], _ => exact List.sorted_nil
  | [x], _ => exact List.sorted_singleton x
  | _ :: _ :: _, h => simp at h

theorem sort_general (N : Nat)
    (IH : ∀ pre seg post rest : List Int, 2 ≤ seg.length → seg.length ≤ N →
      ∃ seg1 k, SortsRange pre seg post rest seg1 k)
    (pre seg post rest : List Int) (h2 : 2 ≤ seg.length) (hN : seg.length ≤ N + 1)
    (hgen : seg.length ≠ 2 ∨ get (pre ++ seg ++ post) pre.length ≤
      get (pre ++ seg ++ post) ((pre.length : Int) + seg.length - 1)) :
    ∃ seg3 k, SortsRange pre seg post rest seg3 k ∧ (seg.length = 2 → k = 1) := by
  obtain ⟨seg1, p, q, m, hstep, hp1, hp, hpn, hq, hqp, hU, hD⟩ :=
    step_general pre seg post rest h2 hgen
  have hl1 : seg1.length = seg.length := hp1.length_eq
  -- the right part, positions `left + p .. right`, is sorted first
  have hR : ∃ V kR, List.Perm V (seg1.drop p) ∧ V.Sorted (· ≤ ·) ∧
      (p + 1 < seg.length → kR + 5 ≤ 4 * (seg.length - p)) ∧
      (¬ p + 1 < seg.length → kR = 0) ∧
      ∀ fuel, qsortLoop (fuel + kR) (pre ++ seg1 ++ post)
          (pushed pre.length seg.length p q rest) =
        qsortLoop fuel (pre ++ (seg1.take p ++ V) ++ post)
          (if 1 < q then ((pre.length : Int) + q - 1) :: (pre.length : Int) :: rest
           else rest) := by
    by_cases hpr : p + 1 < seg.length
    · have e1 : (pre ++ seg1.take p).length = pre.length + p := by
        simp only [List.length_append, List.length_take]; omega
      have e2 : (seg1.drop p).length = seg.length - p := by simp only [List.length_drop, hl1]
      obtain ⟨V, kR, hperm, hs, hb, heq⟩ := IH (pre ++ seg1.take p) (seg1.drop p) post
        (if 1 < q then ((pre.length : Int) + q - 1) :: (pre.length : Int) :: rest else rest)
        (by omega) (by omega)
      refine ⟨V, kR, hperm, hs, fun _ => by rw [e2] at hb; exact hb, fun h => absurd hpr h, ?_⟩
      intro fuel
      have ea : pre ++ seg1.take p ++ seg1.drop p ++ post = pre ++ seg1 ++ post := by
        rw [List.append_assoc pre, List.take_append_drop]
      have eb : pre ++ seg1.take p ++ V ++ post = pre ++ (seg1.take p ++ V) ++ post := by
        simp only [List.append_assoc]
      have := heq fuel
      rw [e1, e2, ea, eb] at this
      have e3 : (((pre.length + p : Nat) : Int) + ((seg.length - p : Nat) : Int) - 1) =
          (pre.length : Int) + seg.length - 1 := by omega
      have e4 : ((pre.length + p : Nat) : Int) = (pre.length : Int) + p := by push_cast; rfl
      rw [e3, e4] at this
      simp only [pushed, hpr, if_true]
      exact this
    · refine ⟨seg1.drop p, 0, List.Perm.refl _, sorted_short _ (by simp; omega),
        fun h => absurd h hpr, fun _ => rfl, ?_⟩
      intro fuel
      simp only [pushed, hpr, if_false, List.take_append_drop, Nat.add_zero]
  obtain ⟨V, kR, hVp, hVs, hRb, hR0, hReq⟩ := hR
  have hVl : V.length = seg.length - p := by rw [hVp.length_eq]; simp [hl1]
  have hSl : (seg1.take p ++ V).length = seg.length := by
    simp only [List.length_append, List.length_take, hVl]; omega
  -- then the left part, positions `left .. left + q - 1`
  have hL : ∃ W kL, List.Perm W ((seg1.take p ++ V).take q) ∧ W.Sorted (· ≤ ·) ∧
      (1 < q → kL + 5 ≤ 4 * q) ∧ (¬ 1 < q → kL = 0) ∧
      ∀ fuel, qsortLoop (fuel + kL) (pre ++ (seg1.take p ++ V) ++ post)
          (if 1 < q then ((pre.length : Int) + q - 1) :: (pre.length : Int) :: rest
           else rest) =
        qsortLoop fuel (pre ++ (W ++ (seg1.take p ++ V).drop q) ++ post) rest := by
    by_cases hql : 1 < q
    · have e1 : ((seg1.take p ++ V).take q).length = q := by
        rw [List.length_take, hSl]; omega
      obtain ⟨W, kL, hperm, hs, hb, heq⟩ := IH pre ((seg1.take p ++ V).take q)
        ((seg1.take p ++ V).drop q ++ post) rest (by omega) (by omega)
      refine ⟨W, kL, hperm, hs, fun _ => by rw [e1] at hb; exact hb, fun h => absurd hql h, ?_⟩
      intro fuel
      have ea : pre ++ (seg1.take p ++ V).take q ++ ((seg1.take p ++ V).drop q ++ post) =
          pre ++ (seg1.take p ++ V) ++ post := by
        have : pre ++ (seg1.take p ++ V).take q ++ ((seg1.take p ++ V).drop q ++ post) =
            pre ++ ((seg1.take p ++ V).take q ++ (seg1.take p ++ V).drop q) ++ post := by
          simp only [List.append_assoc]
        rw [this, List.take_append_drop]
      have eb : pre ++ W ++ ((seg1.take p ++ V).drop q ++ post) =
          pre ++ (W ++ (seg1.take p ++ V).drop q) ++ post := by
        simp only [List.append_assoc]
      have := heq fuel
      rw [e1, ea, eb] at this
      simp only [hql, if_true]
      exact this
    · refine ⟨(seg1.take p ++ V).take q, 0, List.Perm.refl _,
        sorted_short _ (by rw [List.length_take]; omega), fun h => absurd h hql,
        fun _ => rfl, ?_⟩
      intro fuel
      simp only [hql, if_false, List.take_append_drop, Nat.add_zero]
  obtain ⟨W, kL, hWp, hWs, hLb, hL0, hLeq⟩ := hL
  obtain ⟨hsorted, hperm⟩ := combine_sorted (seg1.take p) (seg1.drop p) V W q m hU
    (by rw [List.take_append_drop]; exact hD) hVp hVs hWp hWs
    (by simp only [List.length_take, List.length_drop, hl1]; omega)
    (by simp only [List.length_take, hl1]; omega)
  rw [List.take_append_drop] at hperm
  refine ⟨W ++ (seg1.take p ++ V).drop q, kL + kR + 1,
    ⟨hperm.trans hp1, hsorted, ?_, ?_⟩, ?_⟩
  · by_cases hpr : p + 1 < seg.length <;> by_cases hql : 1 < q
    · have := hRb hpr; have := hLb hql; omega
    · have := hRb hpr; have := hL0 hql; omega
    · have := hR0 hpr; have := hLb hql; omega
    · have := hR0 hpr; have := hL0 hql; omega
  · intro fuel
    rw [show fuel + (kL + kR + 1) = (fuel + kL + kR) + 1 by omega,
      qsortLoop_step _ _ _ _ _ _ _ hstep, hReq, hLeq]
  · intro h
    have := hR0 (by omega)
    have := hL0 (by omega)
    omega

theorem step_swap (pre seg post rest : List Int) (h2 : seg.length = 2)
    (hgt : get (pre ++ seg ++ post) ((pre.length : Int) + seg.length - 1) <
      get (pre ++ seg ++ post) pre.length) :
    ∃ seg1, qsortStep (pre ++ seg ++ post) pre.length ((pre.length : Int) + seg.length - 1) rest
        = .ok (pre ++ seg1 ++ post,
            ((pre.length : Int) + seg.length - 1) :: (pre.length : Int) ::
            ((pre.length : Int) + seg.length - 1) :: (pre.length : Int) :: rest) ∧
      List.Perm seg1 seg ∧
      get (pre ++ seg1 ++ post) pre.length ≤
        get (pre ++ seg1 ++ post) ((pre.length : Int) + seg.length - 1) := by
  have hlen : ((pre ++ seg ++ post).length : Int) = pre.length + seg.length + post.length := by
    simp only [List.length_append]; push_cast; ring
  have hl0 : (0 : Int) ≤ pre.length := Int.ofNat_nonneg _
  have hl1 : (pre.length : Int) < ((pre ++ seg ++ post).length : Int) := by omega
  have hr0 : (0 : Int) ≤ (pre.length : Int) + seg.length - 1 := by omega
  have hr1 : (pre.length : Int) + seg.length - 1 < ((pre ++ seg ++ post).length : Int) := by
    omega
  obtain ⟨a1, e3, -, g1, g2, -, g4⟩ := swap_spec (pre ++ seg ++ post) pre.length
    ((pre.length : Int) + seg.length - 1) hl0 hl1 hr0 hr1
  obtain ⟨seg1, ha1, hp1⟩ := g4 pre seg post rfl (le_refl _) (by omega) (by omega) (by omega)
  subst ha1
  refine ⟨seg1, ?_, hp1, by rw [g1, g2]; omega⟩
  have h1 : ¬ ((pre.length : Int) + seg.length - 1 - pre.length ≠ 1) := by omega
  have h3 : ¬ (get (pre ++ seg ++ post) pre.length ≤
      get (pre ++ seg ++ post) ((pre.length : Int) + seg.length - 1)) := by omega
  have h4 : (pre.length : Int) < (pre.length : Int) + seg.length - 1 := by omega
  simp only [qsortStep, h1, if_false, bind, Except.bind, pure, Except.pure, rd_ok _ _ hl0 hl1,
    rd_ok _ _ hr0 hr1, h3, decide_False, e3, h4, if_true, Bool.false_eq_true]

theorem sort_range : ∀ (N : Nat) (pre seg post rest : List Int), 2 ≤ seg.length →
    seg.length ≤ N → ∃ seg1 k, SortsRange pre seg post rest seg1 k := by
  intro N
  induction N with
  | zero => intro pre seg post rest h2 hN; omega
  | succ N ih =>
    intro pre seg post rest h2 hN
    by_cases hgen : seg.length ≠ 2 ∨ get (pre ++ seg ++ post) pre.length ≤
        get (pre ++ seg ++ post) ((pre.length : Int) + seg.length - 1)
    · obtain ⟨seg3, k, h, -⟩ := sort_general N ih pre seg post rest h2 hN hgen
      exact ⟨seg3, k, h⟩
    · have hlen2 : seg.length = 2 := by
        by_contra hc; exact hgen (Or.inl hc)
      have hgt : get (pre ++ seg ++ post) ((pre.length : Int) + seg.length - 1) <
          get (pre ++ seg ++ post) pre.length := by
        by_contra hc; exact hgen (Or.inr (by omega))
      obtain ⟨seg1, hstep, hp1, hord1⟩ := step_swap pre seg post rest hlen2 hgt
      have hl1 : seg1.length = seg.length := hp1.length_eq
      rw [← hl1] at hord1
      obtain ⟨seg2, k2, ⟨hp2, hs2, -, heq2⟩, hk2⟩ := sort_general N ih pre seg1 post
        (((pre.length : Int) + seg.length - 1) :: (pre.length : Int) :: rest)
        (by omega) (by omega) (Or.inr hord1)
      have hl2 : seg2.length = seg1.length := hp2.length_eq
      have hord2 : get (pre ++ seg2 ++ post) pre.length ≤
          get (pre ++ seg2 ++ post) ((pre.length : Int) + seg2.length - 1) := by
        match seg2, hs2, hl2 with
        | [u, v], hs2, _ =>
          have e0 := get_mid pre [u, v] post 0 (by simp)
          have e1 := get_mid pre [u, v] post 1 (by simp)
          simp only [Nat.add_zero, List.getElem_cons_zero, List.getElem_cons_succ] at e0 e1
          have e2 : ((pre.length : Int) + (([u, v] : List Int).length : Nat) - 1) =
              ((pre.length + 1 : Nat) : Int) := by
            simp only [List.length_cons, List.length_nil]; push_cast; omega
          rw [e2, e0, e1]
          exact (List.sorted_cons.1 hs2).1 v (by simp)
        | [], _, h => simp at h; omega
        | [_], _, h => simp at h; omega
        | _ :: _ :: _ :: _, _, h => simp at h; omega
      obtain ⟨seg3, k3, ⟨hp3, hs3, -, heq3⟩, hk3⟩ := sort_general N ih pre seg2 post rest
        (by omega) (by omega) (Or.inr hord2)
      have hk2' := hk2 (by omega)
      have hk3' := hk3 (by omega)
      subst hk2' hk3'
      refine ⟨seg3, 3, (hp3.trans hp2).trans hp1, hs3, by omega, ?_⟩
      intro fuel
      have e2 := heq2 (fuel + 1)
      have e3 := heq3 fuel
      rw [hl1] at e2
      rw [hl2, hl1] at e3
      rw [show fuel + 3 = (fuel + 1 + 1) + 1 by omega, qsortLoop_step _ _ _ _ _ _ _ hstep,
        e2, e3]

/-- With at least `4 * length` iterations of the main loop available, `qsort` on a non-empty
sequence returns a non-descending permutation of it. -/
theorem qsort_correct (a : List Int) (ha : a ≠ []) (fuel : Nat) (hf : 4 * a.length ≤ fuel) :
    ∃ out, qsort fuel a = .ok out ∧ List.Perm out a ∧ out.Sorted (· ≤ ·) := by
  match a, ha with
  | [x], _ =>
    obtain ⟨f, rfl⟩ : ∃ f, fuel = f + 2 := ⟨fuel - 2, by simp at hf; omega⟩
    refine ⟨[x], ?_, List.Perm.refl _, List.sorted_singleton x⟩
    simp [qsort, qsortLoop, qsortStep, rd, partitionLoop, bind, Except.bind, pure, Except.pure]
  | x :: y :: t, _ =>
    obtain ⟨seg1, k, hp, hs, hk, heq⟩ := sort_range (x :: y :: t).length [] (x :: y :: t) [] []
      (by simp) (le_refl _)
    obtain ⟨f, rfl⟩ : ∃ f, fuel = (f + 1) + k := ⟨fuel - k - 1, by omega⟩
    refine ⟨seg1, ?_, hp, hs⟩
    have := heq (f + 1)
    simp only [List.nil_append, List.append_nil, List.length_nil, Nat.cast_zero, zero_add]
      at this
    rw [qsort, this, qsortLoop]

/-- Claim C3 (sort produces ascending order). For every non-empty sequence of integers `a`,
`qsort` run with at least `4 * a.length` iterations of its main loop available returns
normally, and the sequence `get()` then returns is a rearrangement of `a`, of the same
length, that is non-descending: `get()[k] <= get()[k+1]` for every adjacent pair of
positions. It is therefore the one non-descending rearrangement of `a`: `[5,3,3,1,4]` gives
`[1,3,3,4,5]`, `[2,1]` gives `[1,2]`, a single-element input and an all-equal input are
returned as they are, and a non-ascending (reverse-sorted) input is returned reversed. -/
theorem qsort_ascending (a : List Int) (fuel : Nat) (ha : a ≠ []) (hf : 4 * a.length ≤ fuel) :
    (∃ out, qsort fuel a = .ok out ∧ out.length = a.length ∧ List.Perm out a ∧
      ∀ (k : Nat) (h : k + 1 < out.length), out[k] ≤ out[k + 1]) ∧
    (∀ b : List Int, List.Perm b a → b.Sorted (· ≤ ·) → qsort fuel a = .ok b) ∧
    (a = [5, 3, 3, 1, 4] → qsort fuel a = .ok [1, 3, 3, 4, 5]) ∧
    (a = [2, 1] → qsort fuel a = .ok [1, 2]) ∧
    (∀ x, a = [x] → qsort fuel a = .ok [x]) ∧
    ((∀ x ∈ a, ∀ y ∈ a, x = y) → qsort fuel a = .ok a) ∧
    (a.Sorted (· ≥ ·) → qsort fuel a = .ok a.reverse) := by
  obtain ⟨out, h1, h2, h3⟩ := qsort_correct a ha fuel hf
  have key : ∀ b : List Int, List.Perm b a → b.Sorted (· ≤ ·) → qsort fuel a = .ok b := by
    intro b hb hs
    rw [h1, List.eq_of_perm_of_sorted (h2.trans hb.symm) h3 hs]
  refine ⟨⟨out, h1, h2.length_eq, h2, fun k h => ?_⟩, key, ?_, ?_, ?_, ?_, ?_⟩
  · exact (List.pairwise_iff_getElem.1 h3) k (k + 1) (by omega) h (by omega)
  · intro e
    subst e
    exact key _ (by decide) (by decide)
  · intro e
    subst e
    exact key _ (by decide) (by decide)
  · intro x e
    subst e
    exact key _ (List.Perm.refl _) (List.sorted_singleton x)
  · intro heq
    refine key a (List.Perm.refl _) ?_
    exact List.pairwise_of_forall_mem_list (fun x hx y hy => le_of_eq (heq x hx y hy))
  · intro hs
    refine key _ (List.reverse_perm a) ?_
    exact List.pairwise_reverse.2 hs

/-- Witness for `qsort_ascending`: the sequences `[5, 3, 3, 1, 4]` and `[2, 1]` of the
specification. -/
theorem qsort_ascending_witness :
    ([5, 3, 3, 1, 4] : List Int) ≠ [] ∧ 4 * ([5, 3, 3, 1, 4] : List Int).length ≤ 20 ∧
    qsort 20 [5, 3, 3, 1, 4] = .ok [1, 3, 3, 4, 5] ∧
    (∃ out, qsort 20 [5, 3, 3, 1, 4] = .ok out ∧
      out.length = ([5, 3, 3, 1, 4] : List Int).length ∧ List.Perm out [5, 3, 3, 1, 4] ∧
      ∀ (k : Nat) (h : k + 1 < out.length), out[k] ≤ out[k + 1]) ∧
    qsort 8 [2, 1] = .ok [1, 2] :=
  ⟨by decide, by decide,
    (qsort_ascending [5, 3, 3, 1, 4] 20 (by decide) (by decide)).2.2.1 rfl,
    (qsort_ascending [5, 3, 3, 1, 4] 20 (by decide) (by decide)).1,
    (qsort_ascending [2, 1] 8 (by decide) (by decide)).2.2.2.1 rfl⟩

/-- The examples of the specification with a non-empty input, and the single-element,
all-equal and reverse-sorted inputs. -/
theorem qsort_examples :
    qsort 20 [5, 3, 3, 1, 4] = .ok [1, 3, 3, 4, 5] ∧ qsort 8 [2, 1] = .ok [1, 2] ∧
    qsort 4 [7] = .ok [7] ∧ qsort 12 [4, 4, 4] = .ok [4, 4, 4] ∧
    qsort 16 [4, 3, 2, 1] = .ok [1, 2, 3, 4] :=
  ⟨rfl, rfl, rfl, rfl, rfl⟩

/-- Claim C4 (sort preserves the multiset of elements). For every non-empty sequence of
integers `a`, `qsort` run with at least `4 * a.length` iterations of its main loop available
returns normally and the sequence held afterwards is a permutation of `a`: it has the same
length and every value occurs in it as often as in `a`. (`partitionLoop` and `qsortStep`
write the array through `swap` only.) -/
theorem qsort_permutation (a : List Int) (fuel : Nat) (ha : a ≠ [])
    (hf : 4 * a.length ≤ fuel) :
    ∃ out, qsort fuel a = .ok out ∧ List.Perm out a ∧ out.length = a.length ∧
      ∀ v : Int, out.count v = a.count v := by
  obtain ⟨out, h1, h2, -⟩ := qsort_correct a ha fuel hf
  exact ⟨out, h1, h2, h2.length_eq, fun v => h2.count_eq v⟩

/-- Witness for `qsort_permutation`: the sequence `[2, 1]` of the specification. -/
theorem qsort_permutation_witness :
    ([2, 1] : List Int) ≠ [] ∧ 4 * ([2, 1] : List Int).length ≤ 8 ∧
    ∃ out, qsort 8 [2, 1] = .ok out ∧ List.Perm out [2, 1] ∧
      out.length = ([2, 1] : List Int).length ∧ ∀ v : Int, out.count v = ([2, 1] : List Int).count v :=
  ⟨by decide, by decide, qsort_permutation [2, 1] 8 (by decide) (by decide)⟩

theorem rd_outside (a : List Int) (i : Int) (hb : ¬ (0 ≤ i ∧ i < a.length)) :
    rd a i = .error .outOfBounds := by
  simp only [rd]
  by_cases h0 : 0 ≤ i
  · have : a.length ≤ i.toNat := by omega
    simp [h0, List.getElem?_eq_none this]
  · simp [h0]

theorem rd_cases (a : List Int) (i : Int) :
    (0 ≤ i ∧ i < a.length ∧ ∃ x, rd a i = .ok x) ∨ rd a i = .error .outOfBounds := by
  by_cases hb : 0 ≤ i ∧ i < a.length
  · exact Or.inl ⟨hb.1, hb.2, _, rd_ok a i hb.1 hb.2⟩
  · exact Or.inr (rd_outside a i hb)

theorem scanUp_mono (a : List Int) (m : Int) :
    ∀ (fuel : Nat) (i i1 : Int), scanUp a m fuel i = .ok i1 →
      0 ≤ i ∧ i ≤ i1 ∧ i1 < a.length := by
  intro fuel
  induction fuel with
  | zero => intro i i1 h; simp [scanUp] at h
  | succ fuel ih =>
    intro i i1 h
    rw [scanUp] at h
    rcases rd_cases a i with ⟨h0, h1, x, hx⟩ | hx
    · rw [hx] at h
      simp only [bind, Except.bind, pure, Except.pure] at h
      split at h
      · have := ih _ _ h
        omega
      · injection h with h; omega
    · rw [hx] at h
      simp [bind, Except.bind] at h

theorem scanDown_mono (a : List Int) (m : Int) :
    ∀ (fuel : Nat) (j j1 : Int), scanDown a m fuel j = .ok j1 →
      0 ≤ j1 ∧ j1 ≤ j ∧ j < a.length := by
  intro fuel
  induction fuel with
  | zero => intro j j1 h; simp [scanDown] at h
  | succ fuel ih =>
    intro j j1 h
    rw [scanDown] at h
    rcases rd_cases a j with ⟨h0, h1, x, hx⟩ | hx
    · rw [hx] at h
      simp only [bind, Except.bind, pure, Except.pure] at h
      split at h
      · have := ih _ _ h
        omega
      · injection h with h; omega
    · rw [hx] at h
      simp [bind, Except.bind] at h

/-- The loop `while (middle > array_[i]) ++i;` stops within its budget. -/
theorem scanUp_stops (a : List Int) (m : Int) :
    ∀ (fuel : Nat) (i : Int), (a.length : Int) - i ≤ fuel →
      scanUp a m (fuel + 1) i ≠ .error .noFuel := by
  intro fuel
  induction fuel with
  | zero =>
    intro i hi h
    rw [scanUp] at h
    rcases rd_cases a i with ⟨h0, h1, x, hx⟩ | hx
    · omega
    · rw [hx] at h
      simp [bind, Except.bind] at h
  | succ fuel ih =>
    intro i hi h
    rw [scanUp] at h
    rcases rd_cases a i with ⟨h0, h1, x, hx⟩ | hx
    · rw [hx] at h
      simp only [bind, Except.bind, pure, Except.pure] at h
      split at h
      · exact ih (i + 1) (by omega) h
      · exact absurd h (by simp)
    · rw [hx] at h
      simp [bind, Except.bind] at h

/-- The loop `while (array_[j] > middle) --j;` stops within its budget. -/
theorem scanDown_stops (a : List Int) (m : Int) :
    ∀ (fuel : Nat) (j : Int), j + 1 ≤ fuel →
      scanDown a m (fuel + 1) j ≠ .error .noFuel := by
  intro fuel
  induction fuel with
  | zero =>
    intro j hj h
    rw [scanDown] at h
    rcases rd_cases a j with ⟨h0, h1, x, hx⟩ | hx
    · omega
    · rw [hx] at h
      simp [bind, Except.bind] at h
  | succ fuel ih =>
    intro j hj h
    rw [scanDown] at h
    rcases rd_cases a j with ⟨h0, h1, x, hx⟩ | hx
    · rw [hx] at h
      simp only [bind, Except.bind, pure, Except.pure] at h
      split at h
      · exact ih (j - 1) (by omega) h
      · exact absurd h (by simp)
    · rw [hx] at h
      simp [bind, Except.bind] at h

theorem scans_stop (a : List Int) (m k : Int) :
    scanUp a m (a.length + 1) k ≠ .error .noFuel ∧
    scanDown a m (a.length + 1) k ≠ .error .noFuel := by
  constructor
  · by_cases h0 : 0 ≤ k
    · exact scanUp_stops a m a.length k (by omega)
    · intro h
      rw [scanUp, rd_outside a k (by omega)] at h
      simp [bind, Except.bind] at h
  · by_cases h0 : k < a.length
    · exact scanDown_stops a m a.length k (by omega)
    · intro h
      rw [scanDown, rd_outside a k (by omega)] at h
      simp [bind, Except.bind] at h

theorem swap_cases (a : List Int) (i j : Int) :
    (∃ a1, swap a i j = .ok a1 ∧ a1.length = a.length) ∨ swap a i j = .error .outOfBounds := by
  rcases rd_cases a i with ⟨h0, h1, x, hx⟩ | hx
  · rcases rd_cases a j with ⟨g0, g1, y, hy⟩ | hy
    · left
      refine ⟨(a.set i.toNat y).set j.toNat x, ?_, ?_⟩
      · simp only [swap, hx, hy, bind, Except.bind, pure, Except.pure]
      · simp
    · right
      simp only [swap, hx, hy, bind, Except.bind]
  · right
    simp only [swap, hx, bind, Except.bind]

/-- The loop `while (j > i)` of the partition step stops within its budget. -/
theorem partitionLoop_stops (m : Int) :
    ∀ (fuel : Nat) (a : List Int) (i j : Int),
      (0 ≤ i → j < a.length → i < j → (j - i + 1).toNat ≤ fuel) →
      partitionLoop m (fuel + 1) a i j ≠ .error .noFuel := by
  intro fuel
  induction fuel with
  | zero =>
    intro a i j hm h
    rw [partitionLoop] at h
    by_cases hji : j > i
    · rw [if_pos hji] at h
      cases hu : scanUp a m (a.length + 1) i with
      | error e =>
        rw [hu] at h
        simp only [bind, Except.bind] at h
        injection h with h
        rw [h] at hu
        exact (scans_stop a m i).1 hu
      | ok i1 =>
        rw [hu] at h
        cases hd : scanDown a m (a.length + 1) j with
        | error e =>
          rw [hd] at h
          simp only [bind, Except.bind] at h
          injection h with h
          rw [h] at hd
          exact (scans_stop a m j).2 hd
        | ok j1 =>
          have q1 := scanUp_mono a m _ _ _ hu
          have q2 := scanDown_mono a m _ _ _ hd
          have := hm q1.1 q2.2.2 hji
          omega
    · rw [if_neg hji] at h
      exact absurd h (by simp [pure, Except.pure])
  | succ fuel ih =>
    intro a i j hm h
    rw [partitionLoop] at h
    by_cases hji : j > i
    · rw [if_pos hji] at h
      cases hu : scanUp a m (a.length + 1) i with
      | error e =>
        rw [hu] at h
        simp only [bind, Except.bind] at h
        injection h with h
        rw [h] at hu
        exact (scans_stop a m i).1 hu
      | ok i1 =>
        rw [hu] at h
        cases hd : scanDown a m (a.length + 1) j with
        | error e =>
          rw [hd] at h
          simp only [bind, Except.bind] at h
          injection h with h
          rw [h] at hd
          exact (scans_stop a m j).2 hd
        | ok j1 =>
          rw [hd] at h
          have q1 := scanUp_mono a m _ _ _ hu
          have q2 := scanDown_mono a m _ _ _ hd
          have hfuel := hm q1.1 q2.2.2 hji
          simp only [bind, Except.bind] at h
          by_cases hij : i1 ≤ j1
          · rw [if_pos hij] at h
            rcases swap_cases a i1 j1 with ⟨a1, hs, hl⟩ | hs
            · rw [hs] at h
              simp only at h
              exact ih a1 (i1 + 1) (j1 - 1) (by intro _ _ _; omega) h
            · rw [hs] at h
              simp at h
          · rw [if_neg hij] at h
            exact ih a i1 j1 (by intro _ _ _; omega) h
    · rw [if_neg hji] at h
      exact absurd h (by simp [pure, Except.pure])

/-- Claim C18 (sort terminates). For every non-empty sequence of integers `a`, `qsort` returns
normally within `4 * a.length` iterations of its main loop, that is, the work stack becomes
empty. On every vector `b` each of the two scanning loops stops within `b.length + 1` steps
and the loop `while (j > i)` around them stops within `b.length + 2` iterations, from any
start positions. One iteration of the main loop on a range of `n >= 2` positions
`l .. l + n - 1` pushes only the ranges `l + p .. l + n - 1` with `1 <= p` and
`l .. l + q - 1` with `q + 1 <= n`, both strictly shorter, or else the range has two
elements that are out of order and, after their swap, the range itself is pushed twice. -/
theorem qsort_terminates (a : List Int) (fuel : Nat) (ha : a ≠ []) (hf : 4 * a.length ≤ fuel) :
    (∃ out, qsort fuel a = .ok out) ∧
    (∀ (b : List Int) (m i j : Int),
      scanUp b m (b.length + 1) i ≠ .error .noFuel ∧
      scanDown b m (b.length + 1) j ≠ .error .noFuel ∧
      partitionLoop m (b.length + 2) b i j ≠ .error .noFuel) ∧
    (∀ pre seg post rest : List Int, 2 ≤ seg.length →
      ∃ seg1 indexes,
        qsortStep (pre ++ seg ++ post) pre.length ((pre.length : Int) + seg.length - 1) rest =
          .ok (pre ++ seg1 ++ post, indexes) ∧
        ((∃ p q, indexes = pushed pre.length seg.length p q rest ∧ 1 ≤ p ∧
            q + 1 ≤ seg.length) ∨
         (seg.length = 2 ∧
          get (pre ++ seg ++ post) ((pre.length : Int) + seg.length - 1) <
            get (pre ++ seg ++ post) pre.length ∧
          get (pre ++ seg1 ++ post) pre.length ≤
            get (pre ++ seg1 ++ post) ((pre.length : Int) + seg.length - 1) ∧
          indexes = ((pre.length : Int) + seg.length - 1) :: (pre.length : Int) ::
            ((pre.length : Int) + seg.length - 1) :: (pre.length : Int) :: rest))) := by
  refine ⟨?_, ?_, ?_⟩
  · obtain ⟨out, h, -⟩ := qsort_correct a ha fuel hf
    exact ⟨out, h⟩
  · intro b m i j
    refine ⟨(scans_stop b m i).1, (scans_stop b m j).2, ?_⟩
    exact partitionLoop_stops m (b.length + 1) b i j (by intro _ _ _; omega)
  · intro pre seg post rest h2
    by_cases hgen : seg.length ≠ 2 ∨ get (pre ++ seg ++ post) pre.length ≤
        get (pre ++ seg ++ post) ((pre.length : Int) + seg.length - 1)
    · obtain ⟨seg1, p, q, m, e, -, hp, -, hq, -⟩ := step_general pre seg post rest h2 hgen
      exact ⟨seg1, _, e, Or.inl ⟨p, q, rfl, hp, hq⟩⟩
    · have hlen2 : seg.length = 2 := by
        by_contra hc; exact hgen (Or.inl hc)
      have hgt : get (pre ++ seg ++ post) ((pre.length : Int) + seg.length - 1) <
          get (pre ++ seg ++ post) pre.length := by
        by_contra hc; exact hgen (Or.inr (by omega))
      obtain ⟨seg1, hstep, -, hord⟩ := step_swap pre seg post rest hlen2 hgt
      exact ⟨seg1, _, hstep, Or.inr ⟨hlen2, hgt, hord, rfl⟩⟩

/-- Witness for `qsort_terminates`: the sequence `[3, 1, 2]` with 12 iterations available. -/
theorem qsort_terminates_witness :
    ([3, 1, 2] : List Int) ≠ [] ∧ 4 * ([3, 1, 2] : List Int).length ≤ 12 ∧
    (∃ out, qsort 12 [3, 1, 2] = .ok out) :=
  ⟨by decide, by decide, (qsort_terminates [3, 1, 2] 12 (by decide) (by decide)).1⟩

/-- Claim C19 (sort cannot fail on any input, including the empty one) fails on the code for
the empty sequence. `qsort` pushes `0` and `size() - 1 = -1` before its loop, the first
iteration pops them, takes the general branch because `right - left = -1`, and reads the
pivot `array_[(0 + -1) / 2] = array_[0]`, a position outside the empty vector. This holds
for every iteration budget that lets the loop start. The pivot position itself is `0`. -/
theorem qsort_empty_reads_outside (fuel : Nat) :
    qsort (fuel + 1) [] = .error .outOfBounds ∧
    ((0 : Int) + ((([] : List Int).length : Int) - 1)).tdiv 2 = 0 ∧
    rd [] 0 = .error .outOfBounds := by
  refine ⟨?_, by decide, rfl⟩
  simp [qsort, qsortLoop, qsortStep, rd, bind, Except.bind, pure, Except.pure]

end ArraySort
